import Mathlib

/-!
# Eigen::half (HIP/hcc `Half.h`): conversion engine, classifier and operator layer

Shallow embedding of the portable (non-`EIGEN_HAS_HIP_FP16`, non-`EIGEN_HAS_FP16_C`)
branches of `src/Eigen/src/Core/arch/HIP/hcc/Half.h`.

* An `unsigned short` / `unsigned int` is a `Nat`; the wrap-around of unsigned
  arithmetic and of narrowing casts is written out with `u16` / `u32`.
* The union `FP32 { unsigned int u; float f; }` is its 32 bit pattern, a `Nat` below
  `2 ^ 32`.  The two places where the source computes on the `float` member
  (`f.f += denorm_magic.f` and `o.f -= magic.f`) and the `float` comparisons of the
  operator layer go through `f32_add`, `f32_sub`, `f32_eq`, ... below, which are
  IEEE-754 binary32 operations on bit patterns with round-to-nearest-even.
* A `half` is its 16 bit pattern `x`, a `Nat` below `2 ^ 16`.
-/

namespace Eigen.half_impl

/-! ## Machine integers -/

/-- Value of an expression after conversion to `unsigned int` (32 bits). -/
def u32 (x : Nat) : Nat := x % 2 ^ 32

/-- Value of an expression after `static_cast<unsigned short>` (16 bits). -/
def u16 (x : Nat) : Nat := x % 2 ^ 16

/-! ## IEEE-754 binary32 on bit patterns -/

/-- A binary32 pattern is a NaN: exponent field 255 and non-zero mantissa. -/
def f32_isNaN (u : Nat) : Bool := decide (0x7f800000 < u &&& 0x7fffffff)

/-- A binary32 pattern is an infinity: exponent field 255 and zero mantissa. -/
def f32_isInf (u : Nat) : Bool := decide (u &&& 0x7fffffff = 0x7f800000)

/-- Sign bit (bit 31) of a binary32 pattern. -/
def f32_signbit (u : Nat) : Bool := decide (u &&& 0x80000000 ≠ 0)

/-- Magnitude of a binary32 pattern in units of `2 ^ (-149)` (the smallest subnormal):
`m` for exponent field `0` and `(2 ^ 23 + m) * 2 ^ (e - 1)` for exponent field `e > 0`.
For the infinity pattern (`e = 255`, `m = 0`) the same formula gives `2 ^ 277`, which
is above the magnitude of every finite value. -/
def f32_mag (u : Nat) : Nat :=
  let e := (u >>> 23) &&& 0xff
  let m := u &&& 0x7fffff
  if e = 0 then m else (0x800000 + m) <<< (e - 1)

/-- Signed value of a non-NaN binary32 pattern in units of `2 ^ (-149)`; both zeros
have value `0` and the infinities lie beyond all finite values. -/
def f32_val (u : Nat) : Int :=
  if f32_signbit u then -(f32_mag u : Int) else (f32_mag u : Int)

/-- The rational number denoted by a finite binary32 pattern. -/
def f32_toRat (u : Nat) : ℚ :=
  (if f32_signbit u then -1 else 1) * (f32_mag u : ℚ) / 2 ^ 149

/-- Round the exact magnitude `x` (units of `2 ^ (-149)`), known to lie in the binade
`2 ^ (23 + sh) ≤ x < 2 ^ (24 + sh)`, to 24 significant bits, nearest with ties to
even, and encode it: exponent field `sh + 1`, mantissa `q - 2 ^ 23`.  A carry to
`q = 2 ^ 24` lands on exponent field `sh + 2` with mantissa `0`. -/
def f32_round_at (x sh : Nat) : Nat :=
  let q := x >>> sh
  let r := x % 2 ^ sh
  let half := 2 ^ (sh - 1)
  let q1 := if half < r ∨ (r = half ∧ q % 2 = 1) then q + 1 else q
  (sh <<< 23) + q1

/-- Find the binade of `x` among the exponent fields `n + 1, n, ..., 1` and round
there; magnitudes below `2 ^ 24` are representable as they are. -/
def f32_round_search (x : Nat) : Nat → Nat
  | 0 => x
  | sh + 1 =>
    if x >>> (24 + sh) ≠ 0 then f32_round_at x (sh + 1) else f32_round_search x sh

/-- Pattern of the binary32 magnitude nearest (ties to even) to the exact magnitude
`x`, overflowing to the infinity pattern. -/
def f32_round (x : Nat) : Nat :=
  let u := f32_round_search x 254
  if 0x7f800000 ≤ u then 0x7f800000 else u

/-- IEEE-754 binary32 addition, round to nearest even.  The payload of a NaN result is
left open by the standard; the default quiet NaN is returned here (no theorem below
depends on it: they apply the operation to non-NaN operands with a non-NaN result). -/
def f32_add (a b : Nat) : Nat :=
  if f32_isNaN a ∨ f32_isNaN b then 0x7fc00000
  else if f32_isInf a then
    (if f32_isInf b ∧ f32_signbit a ≠ f32_signbit b then 0x7fc00000 else a)
  else if f32_isInf b then b
  else
    let s : Int := f32_val a + f32_val b
    if s = 0 then (if f32_signbit a ∧ f32_signbit b then 0x80000000 else 0)
    else if s < 0 then 0x80000000 + f32_round s.natAbs
    else f32_round s.natAbs

/-- IEEE-754 binary32 subtraction: addition of the negated second operand. -/
def f32_sub (a b : Nat) : Nat := f32_add a (b ^^^ 0x80000000)

/-- Round the exact magnitude `n / d` (units of `2 ^ (-149)`, `d > 0`) at the binade
with unit `2 ^ sh`: the quotient by `d * 2 ^ sh`, rounded to nearest with ties to
even, encoded with exponent field `sh + 1` (for `sh = 0` the quotient is the pattern
itself, subnormal or in the first binade). -/
def f32_round_rat_at (n d sh : Nat) : Nat :=
  let D := d <<< sh
  let q := n / D
  let r := n % D
  let q1 := if D < 2 * r ∨ (2 * r = D ∧ q % 2 = 1) then q + 1 else q
  (sh <<< 23) + q1

/-- Find the binade of `n / d` among the exponent fields `k + 1, k, ..., 1` and round
there. -/
def f32_round_rat_search (n d : Nat) : Nat → Nat
  | 0 => f32_round_rat_at n d 0
  | sh + 1 =>
    if d <<< (24 + sh) ≤ n then f32_round_rat_at n d (sh + 1)
    else f32_round_rat_search n d sh

/-- Pattern of the binary32 magnitude nearest (ties to even) to the exact magnitude
`n / d`, overflowing to the infinity pattern. -/
def f32_round_rat (n d : Nat) : Nat :=
  let u := f32_round_rat_search n d 254
  if 0x7f800000 ≤ u then 0x7f800000 else u

/-- IEEE-754 binary32 multiplication, round to nearest even; the sign of the result is
the exclusive or of the signs, `0 * inf` is a NaN (default quiet NaN, see `f32_add`). -/
def f32_mul (a b : Nat) : Nat :=
  if f32_isNaN a ∨ f32_isNaN b then 0x7fc00000
  else
    let sign := (a ^^^ b) &&& 0x80000000
    if f32_isInf a ∨ f32_isInf b then
      (if f32_mag a = 0 ∨ f32_mag b = 0 then 0x7fc00000 else sign ||| 0x7f800000)
    else sign ||| f32_round_rat (f32_mag a * f32_mag b) (2 ^ 149)

/-- IEEE-754 binary32 division, round to nearest even; `0 / 0` and `inf / inf` are
NaNs (default quiet NaN, see `f32_add`), a non-zero value over zero is an infinity. -/
def f32_div (a b : Nat) : Nat :=
  if f32_isNaN a ∨ f32_isNaN b then 0x7fc00000
  else
    let sign := (a ^^^ b) &&& 0x80000000
    if f32_isInf a then (if f32_isInf b then 0x7fc00000 else sign ||| 0x7f800000)
    else if f32_isInf b then sign
    else if f32_mag b = 0 then
      (if f32_mag a = 0 then 0x7fc00000 else sign ||| 0x7f800000)
    else sign ||| f32_round_rat (f32_mag a * 2 ^ 149) (f32_mag b)

/-- Unary minus on a `float`: the sign bit is flipped. -/
def f32_neg (a : Nat) : Nat := a ^^^ 0x80000000

/-- Absolute value of a `float` (`fabsf`): the sign bit is cleared. -/
def f32_abs (a : Nat) : Nat := a &&& 0x7fffffff

/-- Conversion `static_cast<float>(n)` of an integer: the nearest binary32 value, ties
to even (exact for `|n| ≤ 2 ^ 24`); zero is converted to `+0.0f`. -/
def int_to_f32 (n : Int) : Nat :=
  (if n < 0 then 0x80000000 else 0) + f32_round (n.natAbs * 2 ^ 149)

/-- Conversion `static_cast<int>(f)` of a `float` to a 32 bit `int`: truncation toward
zero.  The conversion is undefined for a NaN, an infinity and a truncated value
outside the range of `int`; these give `none`. -/
def f32_to_int (u : Nat) : Option Int :=
  if f32_isNaN u ∨ f32_isInf u then none
  else
    let t : Int := if f32_signbit u then -((f32_mag u / 2 ^ 149 : Nat) : Int)
                   else ((f32_mag u / 2 ^ 149 : Nat) : Int)
    if -2147483648 ≤ t ∧ t ≤ 2147483647 then some t else none

/-- The `float` comparison `a == b`. -/
def f32_eq (a b : Nat) : Bool :=
  !f32_isNaN a && !f32_isNaN b && decide (f32_val a = f32_val b)

/-- The `float` comparison `a != b`: true when unordered or different. -/
def f32_ne (a b : Nat) : Bool :=
  f32_isNaN a || f32_isNaN b || decide (f32_val a ≠ f32_val b)

/-- The `float` comparison `a < b`. -/
def f32_lt (a b : Nat) : Bool :=
  !f32_isNaN a && !f32_isNaN b && decide (f32_val a < f32_val b)

/-- The `float` comparison `a <= b`. -/
def f32_le (a b : Nat) : Bool :=
  !f32_isNaN a && !f32_isNaN b && decide (f32_val a ≤ f32_val b)

/-- The `float` comparison `a > b`. -/
def f32_gt (a b : Nat) : Bool :=
  !f32_isNaN a && !f32_isNaN b && decide (f32_val b < f32_val a)

/-- The `float` comparison `a >= b`. -/
def f32_ge (a b : Nat) : Bool :=
  !f32_isNaN a && !f32_isNaN b && decide (f32_val b ≤ f32_val a)

/-! ## Conversion routines (`Half.h`, lines 304-404) -/

/-- `raw_uint16_to_half`: the raw pattern becomes the `x` member. -/
def raw_uint16_to_half (x : Nat) : Nat := x

/-- `float_to_half_rtne(float ff)`, software branch; `ff` is the pattern `f.u`. -/
def float_to_half_rtne (ff : Nat) : Nat :=
  let f32infty := 255 <<< 23
  let f16max := (127 + 16) <<< 23
  let denorm_magic := ((127 - 15) + (23 - 10) + 1) <<< 23
  let sign_mask := 0x80000000
  let sign := ff &&& sign_mask
  let fu := ff ^^^ sign
  let o :=
    if f16max ≤ fu then (if f32infty < fu then 0x7e00 else 0x7c00)
    else if fu < 113 <<< 23 then
      let fu1 := f32_add fu denorm_magic
      u16 (u32 (fu1 + 2 ^ 32 - denorm_magic))
    else
      let mant_odd := (fu >>> 13) &&& 1
      let fu1 := u32 (fu + u32 (u32 (u32 (2 ^ 32 - 112) <<< 23) + 0xfff))
      let fu2 := u32 (fu1 + mant_odd)
      u16 (fu2 >>> 13)
  o ||| u16 (sign >>> 16)

/-- `half_to_float(__hip_half h)`, software branch; `hx` is `h.x`, the result is the
pattern `o.u` of the returned `float`. -/
def half_to_float (hx : Nat) : Nat :=
  let magic := 113 <<< 23
  let shifted_exp := 0x7c00 <<< 13
  let o0 := (hx &&& 0x7fff) <<< 13
  let exp := shifted_exp &&& o0
  let o1 := u32 (o0 + ((127 - 15) <<< 23))
  let o2 :=
    if exp = shifted_exp then u32 (o1 + ((128 - 16) <<< 23))
    else if exp = 0 then f32_sub (u32 (o1 + (1 <<< 23))) magic
    else o1
  o2 ||| u32 ((hx &&& 0x8000) <<< 16)

/-! ## Classifier (`Half.h`, lines 408-424) -/

/-- `(isinf)(const half& a)`. -/
def isinf (a : Nat) : Bool := decide (a &&& 0x7fff = 0x7c00)

/-- `(isnan)(const half& a)`. -/
def isnan (a : Nat) : Bool := decide (0x7c00 < a &&& 0x7fff)

/-- `(isfinite)(const half& a)`. -/
def isfinite (a : Nat) : Bool := !isinf a && !isnan a

/-! ## Emulated comparison operators (`Half.h`, lines 268-285) -/

/-- `operator == (const half& a, const half& b)`. -/
def op_eq (a b : Nat) : Bool := f32_eq (half_to_float a) (half_to_float b)

/-- `operator != (const half& a, const half& b)`. -/
def op_ne (a b : Nat) : Bool := f32_ne (half_to_float a) (half_to_float b)

/-- `operator < (const half& a, const half& b)`. -/
def op_lt (a b : Nat) : Bool := f32_lt (half_to_float a) (half_to_float b)

/-- `operator <= (const half& a, const half& b)`. -/
def op_le (a b : Nat) : Bool := f32_le (half_to_float a) (half_to_float b)

/-- `operator > (const half& a, const half& b)`. -/
def op_gt (a b : Nat) : Bool := f32_gt (half_to_float a) (half_to_float b)

/-- `operator >= (const half& a, const half& b)`. -/
def op_ge (a b : Nat) : Bool := f32_ge (half_to_float a) (half_to_float b)

/-! ## Constructors and conversions of `struct half` (`Half.h`, lines 109-126) -/

/-- `half(bool b)`: `raw_uint16_to_half(b ? 0x3c00 : 0)`. -/
def half_of_bool (b : Bool) : Nat := raw_uint16_to_half (if b then 0x3c00 else 0)

/-- `half(float f)` and the generic `half(const T& val)` after its
`static_cast<float>(val)`: `float_to_half_rtne` of the `float` pattern.  The literals
`0.0` and `1.0` convert to the `float` patterns `0x00000000` and `0x3f800000`. -/
def half_of_float (f : Nat) : Nat := float_to_half_rtne f

/-- `explicit operator bool() const`: `(x & 0x7fff) != 0`. -/
def to_bool (x : Nat) : Bool := decide (x &&& 0x7fff ≠ 0)

/-- The generic `half(const T& val)` at `T = int`:
`float_to_half_rtne(static_cast<float>(val))`. -/
def half_of_int (n : Int) : Nat := float_to_half_rtne (int_to_f32 n)

/-- `explicit operator int() const`: `static_cast<int>(half_to_float(*this))`. -/
def to_int (x : Nat) : Option Int := f32_to_int (half_to_float x)

/-! ## Emulated arithmetic operators (`Half.h`, lines 235-251) -/

/-- `operator + (const half& a, const half& b)`: `half(float(a) + float(b))`. -/
def op_add (a b : Nat) : Nat := half_of_float (f32_add (half_to_float a) (half_to_float b))

/-- `operator * (const half& a, const half& b)`: `half(float(a) * float(b))`. -/
def op_mul (a b : Nat) : Nat := half_of_float (f32_mul (half_to_float a) (half_to_float b))

/-- `operator - (const half& a, const half& b)`: `half(float(a) - float(b))`. -/
def op_sub (a b : Nat) : Nat := half_of_float (f32_sub (half_to_float a) (half_to_float b))

/-- `operator / (const half& a, const half& b)`: `half(float(a) / float(b))`. -/
def op_div (a b : Nat) : Nat := half_of_float (f32_div (half_to_float a) (half_to_float b))

/-- `operator - (const half& a)`: `result.x = a.x ^ 0x8000`. -/
def op_neg (a : Nat) : Nat := u16 (a ^^^ 0x8000)

/-! ## Standard functions (`Half.h`, lines 426-436, 497-514, 619-627, 653-660) -/

/-- `abs(const half& a)`: `result.x = a.x & 0x7FFF`. -/
def abs (a : Nat) : Nat := u16 (a &&& 0x7FFF)

/-- `fabsh(const Eigen::half& a)`: `result.x = a.x & 0x7FFF`. -/
def fabsh (a : Nat) : Nat := u16 (a &&& 0x7FFF)

/-- `(min)(const half& a, const half& b)`: `f2 < f1 ? b : a` on the `float` values. -/
def min (a b : Nat) : Nat :=
  let f1 := half_to_float a
  let f2 := half_to_float b
  if f32_lt f2 f1 then b else a

/-- `(max)(const half& a, const half& b)`: `f1 < f2 ? b : a` on the `float` values. -/
def max (a b : Nat) : Nat :=
  let f1 := half_to_float a
  let f2 := half_to_float b
  if f32_lt f1 f2 then b else a

/-- `std::hash<Eigen::half>::operator()`: `static_cast<std::size_t>(a.x)`. -/
def hash (a : Nat) : Nat := a

/-! ## Constants (`Half.h`, lines 574-582 and 598-613) -/

/-- `std::numeric_limits<Eigen::half>::min()`. -/
def numeric_limits.min : Nat := raw_uint16_to_half 0x400

/-- `std::numeric_limits<Eigen::half>::lowest()`. -/
def numeric_limits.lowest : Nat := raw_uint16_to_half 0xfbff

/-- `std::numeric_limits<Eigen::half>::max()`. -/
def numeric_limits.max : Nat := raw_uint16_to_half 0x7bff

/-- `std::numeric_limits<Eigen::half>::epsilon()`. -/
def numeric_limits.epsilon : Nat := raw_uint16_to_half 0x0800

/-- `std::numeric_limits<Eigen::half>::infinity()`. -/
def numeric_limits.infinity : Nat := raw_uint16_to_half 0x7c00

/-- `std::numeric_limits<Eigen::half>::quiet_NaN()`. -/
def numeric_limits.quiet_NaN : Nat := raw_uint16_to_half 0x7e00

/-- `std::numeric_limits<Eigen::half>::signaling_NaN()`. -/
def numeric_limits.signaling_NaN : Nat := raw_uint16_to_half 0x7e00

/-- `std::numeric_limits<Eigen::half>::denorm_min()`. -/
def numeric_limits.denorm_min : Nat := raw_uint16_to_half 0x1

/-- `std::numeric_limits<Eigen::half>::digits`. -/
def numeric_limits.digits : Nat := 11

/-- `NumTraits<Eigen::half>::epsilon()`. -/
def NumTraits.epsilon : Nat := raw_uint16_to_half 0x0800

/-- `NumTraits<Eigen::half>::highest()`. -/
def NumTraits.highest : Nat := raw_uint16_to_half 0x7bff

/-- `NumTraits<Eigen::half>::lowest()`. -/
def NumTraits.lowest : Nat := raw_uint16_to_half 0xfbff

/-- `NumTraits<Eigen::half>::infinity()`. -/
def NumTraits.infinity : Nat := raw_uint16_to_half 0x7c00

/-- `NumTraits<Eigen::half>::quiet_NaN()`. -/
def NumTraits.quiet_NaN : Nat := raw_uint16_to_half 0x7c01

/-! ## The binary16 reading of a pattern, as the specification words it -/

/-- The rational value the specification assigns to a finite binary16 pattern:
`sign × mantissa/1024 × 2^-14` for exponent field `0` and
`sign × (1 + mantissa/1024) × 2^(exponent-15)` for exponent field `1..30`
(sign from bit 15, exponent from bits 14-10, mantissa from bits 9-0). -/
def half_toRat (h : Nat) : ℚ :=
  let s := (h >>> 15) &&& 1
  let e := (h >>> 10) &&& 0x1f
  let m := h &&& 0x3ff
  let sign : ℚ := if s = 1 then -1 else 1
  if e = 0 then sign * ((m : ℚ) / 1024) * 2 ^ (-14 : ℤ)
  else sign * (1 + (m : ℚ) / 1024) * 2 ^ ((e : ℤ) - 15)


/-- Sign-magnitude key of a 16 bit pattern: the magnitude bits `h & 0x7fff`, negated
when bit 15 is set. -/
def sign_magnitude_key (h : Nat) : Int :=
  if h &&& 0x8000 = 0 then ((h &&& 0x7fff : Nat) : Int) else -((h &&& 0x7fff : Nat) : Int)

/-! ## Auxiliary functions of the proofs -/

/-- The integer nearest to `x / 2 ^ 125`, ties to the even one. -/
def rne125 (x : Nat) : Nat :=
  x / 2 ^ 125 +
    if 2 ^ 124 < x % 2 ^ 125 ∨ (x % 2 ^ 125 = 2 ^ 124 ∧ x / 2 ^ 125 % 2 = 1) then 1 else 0

/-- The half pattern without its sign bit, as a function of the binary32 pattern
without its sign bit: the three branches of `float_to_half_rtne` in arithmetic form. -/
def rtne_mag (fu : Nat) : Nat :=
  if 1199570944 ≤ fu then (if 2139095040 < fu then 0x7e00 else 0x7c00)
  else if fu < 947912704 then rne125 (f32_mag fu)
  else (fu - 939524096 + 4095 + fu / 8192 % 2) / 8192

/-- Magnitude of a binary16 pattern in units of `2 ^ (-24)` (the smallest subnormal). -/
def half_mag (h : Nat) : Nat :=
  if h / 1024 % 32 = 0 then h % 1024 else (1024 + h % 1024) * 2 ^ (h / 1024 % 32 - 1)

/-! ## Bit operations as arithmetic -/

theorem and_shl_mask (x s w : Nat) :
    x &&& ((2 ^ w - 1) <<< s) = ((x / 2 ^ s) % 2 ^ w) * 2 ^ s := by
  rw [← Nat.shiftLeft_eq, ← Nat.shiftRight_eq_div_pow]
  apply Nat.eq_of_testBit_eq
  intro i
  simp only [Nat.testBit_and, Nat.testBit_shiftLeft, Nat.testBit_two_pow_sub_one,
    Nat.testBit_mod_two_pow, Nat.testBit_shiftRight]
  by_cases h : s ≤ i
  · have : s + (i - s) = i := by omega
    simp [h, this, Bool.and_comm]
  · simp [h]

theorem xor_and_bit (x s : Nat) (hx : x < 2 ^ (s + 1)) :
    x ^^^ (x &&& (2 ^ s)) = x % 2 ^ s := by
  apply Nat.eq_of_testBit_eq
  intro i
  simp only [Nat.testBit_xor, Nat.testBit_and, Nat.testBit_mod_two_pow, Nat.testBit_two_pow]
  rcases Nat.lt_trichotomy i s with h | h | h
  · have : s ≠ i := by omega
    simp [h, this]
  · subst h; simp
  · have h1 : ¬ i < s := by omega
    have h2 : s ≠ i := by omega
    have : x.testBit i = false := by
      apply Nat.testBit_lt_two_pow
      calc x < 2 ^ (s+1) := hx
        _ ≤ 2 ^ i := Nat.pow_le_pow_right (by norm_num) (by omega)
    simp [h1, h2, this]

theorem and_7fff (x : Nat) : x &&& 0x7fff = x % 32768 :=
  Nat.and_pow_two_sub_one_eq_mod x 15

theorem and_7fffffff (x : Nat) : x &&& 0x7fffffff = x % 2147483648 :=
  Nat.and_pow_two_sub_one_eq_mod x 31

theorem and_7fffff (x : Nat) : x &&& 0x7fffff = x % 8388608 :=
  Nat.and_pow_two_sub_one_eq_mod x 23

theorem and_ff (x : Nat) : x &&& 0xff = x % 256 :=
  Nat.and_pow_two_sub_one_eq_mod x 8

theorem and_3ff (x : Nat) : x &&& 0x3ff = x % 1024 :=
  Nat.and_pow_two_sub_one_eq_mod x 10

theorem and_1f (x : Nat) : x &&& 0x1f = x % 32 :=
  Nat.and_pow_two_sub_one_eq_mod x 5

theorem and_1 (x : Nat) : x &&& 1 = x % 2 :=
  Nat.and_pow_two_sub_one_eq_mod x 1

theorem and_8000 (x : Nat) : x &&& 0x8000 = x / 32768 % 2 * 32768 := by
  have h := and_shl_mask x 15 1
  norm_num at h
  exact h

theorem and_80000000 (x : Nat) : x &&& 0x80000000 = x / 2147483648 % 2 * 2147483648 := by
  have h := and_shl_mask x 31 1
  norm_num at h
  exact h

theorem shifted_exp_and (y : Nat) :
    (0x7c00 <<< 13) &&& y = y / 8388608 % 32 * 8388608 := by
  have h := and_shl_mask y 23 5
  norm_num at h
  rw [Nat.and_comm]
  exact h

theorem or_high (a c s : Nat) (ha : a < 2 ^ s) : a ||| c * 2 ^ s = a + c * 2 ^ s := by
  rw [Nat.or_comm, Nat.mul_comm c, ← Nat.mul_add_lt_is_or ha, Nat.add_comm]


/-! ## The binary32 model: magnitudes and rounding -/

theorem f32_mag_eq (u : Nat) :
    f32_mag u = if u / 8388608 % 256 = 0 then u % 8388608
      else (8388608 + u % 8388608) * 2 ^ (u / 8388608 % 256 - 1) := by
  simp only [f32_mag, Nat.shiftRight_eq_div_pow, and_ff, and_7fffff, Nat.shiftLeft_eq]

theorem f32_mag_mk (e m : Nat) (hm : m < 8388608) (he : 1 ≤ e) (he2 : e ≤ 255) :
    f32_mag (e * 8388608 + m) = (8388608 + m) * 2 ^ (e - 1) := by
  rw [f32_mag_eq]
  have h1 : (e * 8388608 + m) / 8388608 % 256 = e := by omega
  have h2 : (e * 8388608 + m) % 8388608 = m := by omega
  rw [h1, h2, if_neg (by omega)]

theorem f32_mag_small (m : Nat) (hm : m < 8388608) : f32_mag m = m := by
  rw [f32_mag_eq]
  have h1 : m / 8388608 % 256 = 0 := by omega
  have h2 : m % 8388608 = m := by omega
  rw [h1, h2, if_pos rfl]

/-- The magnitude is strictly increasing in the pattern below the sign bit. -/
theorem f32_mag_lt (a b : Nat) (hb : b < 2147483648) (hab : a < b) :
    f32_mag a < f32_mag b := by
  obtain ⟨ea, ma, rfl, hma, hea⟩ : ∃ e m, a = e * 8388608 + m ∧ m < 8388608 ∧ e ≤ 255 :=
    ⟨a / 8388608, a % 8388608, by omega, by omega, by omega⟩
  obtain ⟨eb, mb, rfl, hmb, heb⟩ : ∃ e m, b = e * 8388608 + m ∧ m < 8388608 ∧ e ≤ 255 :=
    ⟨b / 8388608, b % 8388608, by omega, by omega, by omega⟩
  rcases Nat.lt_trichotomy ea eb with h | h | h
  · -- smaller exponent field
    have hb1 : f32_mag (eb * 8388608 + mb) = (8388608 + mb) * 2 ^ (eb - 1) :=
      f32_mag_mk eb mb hmb (by omega) heb
    have hpb : 0 < 2 ^ (eb - 1) := Nat.two_pow_pos _
    rcases Nat.eq_zero_or_pos ea with h0 | h0
    · subst h0
      rw [hb1]
      simp only [Nat.zero_mul, Nat.zero_add]
      rw [f32_mag_small ma hma]
      nlinarith
    · rw [hb1, f32_mag_mk ea ma hma h0 hea]
      have hpow : 2 ^ (ea - 1) * 2 ≤ 2 ^ (eb - 1) := by
        rw [← Nat.pow_succ]
        exact Nat.pow_le_pow_right (by norm_num) (by omega)
      have hpa : 0 < 2 ^ (ea - 1) := Nat.two_pow_pos _
      nlinarith
  · subst h
    have hm : ma < mb := by omega
    rcases Nat.eq_zero_or_pos ea with h0 | h0
    · subst h0
      simp only [Nat.zero_mul, Nat.zero_add]
      rw [f32_mag_small ma hma, f32_mag_small mb hmb]
      exact hm
    · rw [f32_mag_mk ea ma hma h0 hea, f32_mag_mk ea mb hmb h0 hea]
      have hpa : 0 < 2 ^ (ea - 1) := Nat.two_pow_pos _
      nlinarith
  · omega

theorem f32_mag_le (a b : Nat) (hb : b < 2147483648) (hab : a ≤ b) :
    f32_mag a ≤ f32_mag b := by
  rcases Nat.eq_or_lt_of_le hab with h | h
  · rw [h]
  · exact Nat.le_of_lt (f32_mag_lt a b hb h)

theorem f32_mag_lt_iff (a b : Nat) (ha : a < 2147483648) (hb : b < 2147483648) :
    f32_mag a < f32_mag b ↔ a < b := by
  constructor
  · intro h
    by_contra hn
    have := f32_mag_le b a ha (by omega)
    omega
  · exact f32_mag_lt a b hb

theorem f32_mag_inj (a b : Nat) (ha : a < 2147483648) (hb : b < 2147483648)
    (h : f32_mag a = f32_mag b) : a = b := by
  rcases Nat.lt_trichotomy a b with h1 | h1 | h1
  · have := f32_mag_lt a b hb h1; omega
  · exact h1
  · have := f32_mag_lt b a ha h1; omega

theorem f32_round_search_small (x n : Nat) (hx : x < 2 ^ 24) :
    f32_round_search x n = x := by
  induction n with
  | zero => rfl
  | succ k ih =>
    have h0 : x >>> (24 + k) = 0 := by
      rw [Nat.shiftRight_eq_div_pow]
      apply Nat.div_eq_of_lt
      calc x < 2 ^ 24 := hx
        _ ≤ 2 ^ (24 + k) := Nat.pow_le_pow_right (by norm_num) (by omega)
    simp only [f32_round_search, h0, ne_eq, not_true_eq_false, if_false]
    exact ih

theorem f32_round_search_binade (x sh n : Nat) (hlo : 2 ^ (23 + sh) ≤ x)
    (hhi : x < 2 ^ (24 + sh)) (h1 : 1 ≤ sh) (hn : sh ≤ n) :
    f32_round_search x n = f32_round_at x sh := by
  induction n with
  | zero => omega
  | succ k ih =>
    rcases Nat.eq_or_lt_of_le hn with h | h
    · -- the binade is the one examined first
      have hne : x >>> (24 + k) ≠ 0 := by
        rw [Nat.shiftRight_eq_div_pow]
        have hp : 0 < 2 ^ (24 + k) := Nat.two_pow_pos _
        have : 2 ^ (24 + k) ≤ x := by
          have : 24 + k = 23 + sh := by omega
          rw [this]; exact hlo
        exact Nat.pos_iff_ne_zero.mp (Nat.div_pos this hp)
      simp only [f32_round_search, hne, ne_eq, not_false_eq_true, if_true, h]
    · have h0 : x >>> (24 + k) = 0 := by
        rw [Nat.shiftRight_eq_div_pow]
        apply Nat.div_eq_of_lt
        calc x < 2 ^ (24 + sh) := hhi
          _ ≤ 2 ^ (24 + k) := Nat.pow_le_pow_right (by norm_num) (by omega)
      simp only [f32_round_search, h0, ne_eq, not_true_eq_false, if_false]
      exact ih (by omega)

/-- Rounding of a magnitude that has at most 24 significant bits is exact. -/
theorem f32_round_exact (q sh : Nat) (hq1 : 8388608 ≤ q) (hq2 : q < 16777216)
    (h1 : 1 ≤ sh) (h2 : sh ≤ 253) :
    f32_round (q * 2 ^ sh) = sh * 8388608 + q := by
  have hp : 0 < 2 ^ sh := Nat.two_pow_pos _
  have hlo : 2 ^ (23 + sh) ≤ q * 2 ^ sh := by
    rw [Nat.pow_add]; exact Nat.mul_le_mul_right _ hq1
  have hhi : q * 2 ^ sh < 2 ^ (24 + sh) := by
    rw [Nat.pow_add]; exact Nat.mul_lt_mul_of_pos_right hq2 hp
  have hs := f32_round_search_binade (q * 2 ^ sh) sh 254 hlo hhi h1 (by omega)
  have hat : f32_round_at (q * 2 ^ sh) sh = sh * 8388608 + q := by
    have hq : (q * 2 ^ sh) >>> sh = q := by
      rw [Nat.shiftRight_eq_div_pow, Nat.mul_div_cancel _ hp]
    have hr : (q * 2 ^ sh) % 2 ^ sh = 0 := Nat.mul_mod_left _ _
    have hh : 0 < 2 ^ (sh - 1) := Nat.two_pow_pos _
    simp only [f32_round_at, hq, hr, Nat.shiftLeft_eq]
    have hc : ¬ (2 ^ (sh - 1) < 0 ∨ (0 = 2 ^ (sh - 1) ∧ q % 2 = 1)) := by omega
    rw [if_neg hc]
  simp only [f32_round, hs, hat]
  rw [if_neg (by omega)]

theorem f32_mag_round_exact (q sh : Nat) (hq1 : 8388608 ≤ q) (hq2 : q < 16777216)
    (h2 : sh ≤ 253) :
    f32_mag (sh * 8388608 + q) = q * 2 ^ sh := by
  have h := f32_mag_mk (sh + 1) (q - 8388608) (by omega) (by omega) (by omega)
  have e1 : (sh + 1) * 8388608 + (q - 8388608) = sh * 8388608 + q := by omega
  have e2 : 8388608 + (q - 8388608) = q := by omega
  rw [e1, e2] at h
  simpa using h


theorem f32_isNaN_lt (u : Nat) (h : u ≤ 2139095040) : f32_isNaN u = false := by
  simp only [f32_isNaN, and_7fffffff, decide_eq_false_iff_not]
  omega

theorem f32_isInf_lt (u : Nat) (h : u < 2139095040) : f32_isInf u = false := by
  simp only [f32_isInf, and_7fffffff, decide_eq_false_iff_not]
  omega

theorem f32_signbit_lt (u : Nat) (h : u < 2147483648) : f32_signbit u = false := by
  simp only [f32_signbit, and_80000000, decide_eq_false_iff_not]
  omega

theorem f32_val_lt (u : Nat) (h : u < 2147483648) : f32_val u = (f32_mag u : Int) := by
  simp [f32_val, f32_signbit_lt u h]

/-- Normalisation of `k * 2 ^ t` to a 24 bit significand. -/
theorem normalize_scaled (k t : Nat) (hk : 0 < k) (hk2 : k < 16777216) (ht : 24 ≤ t) :
    ∃ q sh, k * 2 ^ t = q * 2 ^ sh ∧ 8388608 ≤ q ∧ q < 16777216 ∧ 1 ≤ sh ∧ sh ≤ t := by
  have hj1 : 2 ^ Nat.log 2 k ≤ k := Nat.pow_log_le_self 2 (by omega)
  have hj2 : k < 2 ^ (Nat.log 2 k + 1) := Nat.lt_pow_succ_log_self (by norm_num) k
  have hj3 : Nat.log 2 k < 24 := by
    apply Nat.log_lt_of_lt_pow (by omega)
    norm_num; exact hk2
  generalize Nat.log 2 k = j at hj1 hj2 hj3
  refine ⟨k * 2 ^ (23 - j), t - (23 - j), ?_, ?_, ?_, by omega, by omega⟩
  · rw [Nat.mul_assoc, ← Nat.pow_add]
    congr 2; omega
  · calc 8388608 = 2 ^ j * 2 ^ (23 - j) := by
          rw [← Nat.pow_add]; have : j + (23 - j) = 23 := by omega
          rw [this]
      _ ≤ k * 2 ^ (23 - j) := Nat.mul_le_mul_right _ hj1
  · calc k * 2 ^ (23 - j) < 2 ^ (j + 1) * 2 ^ (23 - j) :=
          Nat.mul_lt_mul_of_pos_right hj2 (Nat.two_pow_pos _)
      _ = 16777216 := by
          rw [← Nat.pow_add]; have : j + 1 + (23 - j) = 24 := by omega
          rw [this]

/-- Rounding is exact on every magnitude `k * 2 ^ t` with `k` below `2 ^ 24`. -/
theorem f32_round_scaled (k t : Nat) (hk : 0 < k) (hk2 : k < 16777216) (ht : 24 ≤ t)
    (ht2 : t ≤ 253) :
    f32_round (k * 2 ^ t) < 2139095040 ∧ f32_mag (f32_round (k * 2 ^ t)) = k * 2 ^ t := by
  obtain ⟨q, sh, he, hq1, hq2, hs1, hs2⟩ := normalize_scaled k t hk hk2 ht
  rw [he, f32_round_exact q sh hq1 hq2 hs1 (by omega)]
  refine ⟨by omega, f32_mag_round_exact q sh hq1 hq2 (by omega)⟩

theorem f32_val_neg_magic : f32_val (947912704 ^^^ 0x80000000) = -(2 ^ 135 : Int) := by
  have hx : (947912704 ^^^ 0x80000000 : Nat) = 3095396352 := by decide
  have hs : f32_signbit 3095396352 = true := by decide
  have hm : f32_mag 3095396352 = 2 ^ 135 := by
    rw [f32_mag_eq]; norm_num
  rw [hx, f32_val, hs, hm]
  norm_num

theorem f32_val_denorm_magic : f32_val 1056964608 = (2 ^ 148 : Int) := by
  have hm : f32_mag 1056964608 = 2 ^ 148 := by
    rw [f32_mag_eq]; norm_num
  rw [f32_val_lt _ (by norm_num), hm]
  norm_num


/-! ## The two `float` computations of the conversion routines -/

/-- The renormalising subtraction `o.f -= magic.f` of `half_to_float`: for a mantissa
`x` below `1024` the operand `(113 << 23) + (x << 13)` is `2^-14 * (1 + x/1024)`, and
the difference is exactly `x * 2^-24`. -/
theorem f32_sub_magic (x : Nat) (hx : x < 1024) :
    f32_sub (x * 8192 + 947912704) 947912704 < 947912704 ∧
    f32_mag (f32_sub (x * 8192 + 947912704) 947912704) = x * 2 ^ 125 := by
  have hb1 : f32_isNaN (947912704 ^^^ 0x80000000) = false := by decide
  have hb2 : f32_isInf (947912704 ^^^ 0x80000000) = false := by decide
  have ha1 : f32_isNaN (x * 8192 + 947912704) = false := f32_isNaN_lt _ (by omega)
  have ha2 : f32_isInf (x * 8192 + 947912704) = false := f32_isInf_lt _ (by omega)
  have ha3 : f32_signbit (x * 8192 + 947912704) = false := f32_signbit_lt _ (by omega)
  have hva : f32_val (x * 8192 + 947912704) = ((8388608 + x * 8192) * 2 ^ 112 : Nat) := by
    rw [f32_val_lt _ (by omega)]
    have := f32_mag_mk 113 (x * 8192) (by omega) (by omega) (by omega)
    have e : 113 * 8388608 + x * 8192 = x * 8192 + 947912704 := by omega
    rw [e] at this
    rw [this]
  have hs : f32_val (x * 8192 + 947912704) + f32_val (947912704 ^^^ 0x80000000)
      = ((x * 2 ^ 125 : Nat) : Int) := by
    rw [hva, f32_val_neg_magic]
    push_cast
    ring
  have hmag : f32_mag 947912704 = 2 ^ 135 := by
    rw [f32_mag_eq]; norm_num
  rcases Nat.eq_zero_or_pos x with h0 | h0
  · subst h0
    have hr : f32_sub (0 * 8192 + 947912704) 947912704 = 0 := by
      simp only [f32_sub, f32_add, ha1, hb1, ha2, hb2, hs, ha3]
      simp
    rw [hr]
    exact ⟨by norm_num, by rw [f32_mag_small 0 (by norm_num)]; simp⟩
  · have hpos : (0 : Int) < ((x * 2 ^ 125 : Nat) : Int) := by
      have : 0 < x * 2 ^ 125 := Nat.mul_pos h0 (Nat.two_pow_pos _)
      exact_mod_cast this
    have hr : f32_sub (x * 8192 + 947912704) 947912704 = f32_round (x * 2 ^ 125) := by
      simp only [f32_sub, f32_add, ha1, hb1, ha2, hb2, hs]
      have h1 : ¬ (((x * 2 ^ 125 : Nat) : Int) = 0) := by omega
      have h2 : ¬ (((x * 2 ^ 125 : Nat) : Int) < 0) := by omega
      simp only [Bool.false_eq_true, or_self, if_false, h1, h2, Int.natAbs_ofNat]
    obtain ⟨hlt, hm⟩ := f32_round_scaled x 125 h0 (by omega) (by omega) (by omega)
    rw [hr]
    refine ⟨?_, hm⟩
    have : f32_mag (f32_round (x * 2 ^ 125)) < f32_mag 947912704 := by
      rw [hm, hmag]
      have : (2:Nat) ^ 135 = 1024 * 2 ^ 125 := by norm_num
      rw [this]
      exact Nat.mul_lt_mul_of_pos_right hx (Nat.two_pow_pos _)
    exact (f32_mag_lt_iff _ _ (by omega) (by norm_num)).mp this

/-- The denormalising addition `f.f += denorm_magic.f` of `float_to_half_rtne`: for a
magnitude below `2^-14` the sum with `0.5` has the magnitude, rounded to a multiple of
`2^-24`, in its low mantissa bits. -/
theorem f32_add_denorm_magic (fu : Nat) (h : fu < 947912704) :
    f32_add fu 1056964608 = 1056964608 + rne125 (f32_mag fu) ∧ rne125 (f32_mag fu) ≤ 1024 := by
  have hb1 : f32_isNaN 1056964608 = false := by decide
  have hb2 : f32_isInf 1056964608 = false := by decide
  have ha1 : f32_isNaN fu = false := f32_isNaN_lt _ (by omega)
  have ha2 : f32_isInf fu = false := f32_isInf_lt _ (by omega)
  have hmag : f32_mag 947912704 = 2 ^ 135 := by
    rw [f32_mag_eq]; norm_num
  have hlt : f32_mag fu < 2 ^ 135 := by
    rw [← hmag]; exact f32_mag_lt _ _ (by norm_num) h
  generalize hx : f32_mag fu = x at hlt
  have hs : f32_val fu + f32_val 1056964608 = ((x + 2 ^ 148 : Nat) : Int) := by
    rw [f32_val_lt _ (by omega), f32_val_denorm_magic, hx]
    push_cast; ring
  have hr : f32_add fu 1056964608 = f32_round (x + 2 ^ 148) := by
    simp only [f32_add, ha1, hb1, ha2, hb2, hs]
    have h1 : ¬ (((x + 2 ^ 148 : Nat) : Int) = 0) := by
      have : 0 < x + 2 ^ 148 := by positivity
      omega
    have h2 : ¬ (((x + 2 ^ 148 : Nat) : Int) < 0) := by omega
    simp only [Bool.false_eq_true, or_self, if_false, h1, h2, Int.natAbs_ofNat]
  have hsearch := f32_round_search_binade (x + 2 ^ 148) 125 254
    (by norm_num) (by norm_num at hlt ⊢; omega) (by norm_num) (by norm_num)
  have hk : rne125 x ≤ 1024 := by
    unfold rne125
    norm_num at hlt ⊢
    split <;> omega
  have hq : (x + 2 ^ 148) >>> 125 = 8388608 + x / 2 ^ 125 := by
    rw [Nat.shiftRight_eq_div_pow]
    norm_num at hlt ⊢
    omega
  have hrem : (x + 2 ^ 148) % 2 ^ 125 = x % 2 ^ 125 := by
    norm_num
    omega
  have hat : f32_round_at (x + 2 ^ 148) 125 = 1056964608 + rne125 x := by
    simp only [f32_round_at, hq, hrem, rne125, Nat.shiftLeft_eq]
    have hodd : (8388608 + x / 2 ^ 125) % 2 = x / 2 ^ 125 % 2 := by omega
    rw [hodd]
    norm_num
    split <;> omega
  refine ⟨?_, hk⟩
  rw [hr]
  simp only [f32_round, hsearch, hat]
  rw [if_neg (by omega)]


/-! ## `half_to_float` in arithmetic form -/

theorem half_to_float_eq (hx : Nat) (h : hx < 65536) :
    half_to_float hx =
      (if 31744 ≤ hx % 32768 then hx % 32768 * 8192 + 1879048192
       else if hx % 32768 < 1024 then f32_sub (hx % 32768 * 8192 + 947912704) 947912704
       else hx % 32768 * 8192 + 939524096) + hx / 32768 * 2147483648 := by
  have hsign : u32 ((hx &&& 0x8000) <<< 16) = hx / 32768 * 2 ^ 31 := by
    simp only [and_8000, Nat.shiftLeft_eq, u32]
    omega
  have ho0 : (hx &&& 0x7fff) <<< 13 = hx % 32768 * 8192 := by
    simp only [and_7fff, Nat.shiftLeft_eq]
  have hexp : (0x7c00 <<< 13) &&& (hx % 32768 * 8192) = hx % 32768 / 1024 * 8388608 := by
    rw [shifted_exp_and]
    omega
  have hse : (0x7c00 <<< 13 : Nat) = 260046848 := by decide
  have ho1 : u32 (hx % 32768 * 8192 + ((127 - 15) <<< 23)) = hx % 32768 * 8192 + 939524096 := by
    simp only [Nat.shiftLeft_eq, u32]
    omega
  simp only [half_to_float, hsign, ho0, hexp, ho1]
  rw [hse]
  have hxlt : hx % 32768 < 32768 := Nat.mod_lt _ (by norm_num)
  generalize hx % 32768 = x at *
  by_cases c1 : 31744 ≤ x
  · have e1 : x / 1024 * 8388608 = 260046848 := by omega
    rw [if_pos e1, if_pos c1]
    have e2 : u32 (x * 8192 + 939524096 + ((128 - 16) <<< 23)) = x * 8192 + 1879048192 := by
      simp only [Nat.shiftLeft_eq, u32]
      omega
    rw [e2]
    exact or_high _ _ 31 (by omega)
  · have e1 : ¬ (x / 1024 * 8388608 = 260046848) := by omega
    rw [if_neg e1, if_neg c1]
    by_cases c2 : x < 1024
    · have e3 : x / 1024 * 8388608 = 0 := by omega
      rw [if_pos e3, if_pos c2]
      have e4 : u32 (x * 8192 + 939524096 + (1 <<< 23)) = x * 8192 + 947912704 := by
        simp only [Nat.shiftLeft_eq, u32]
        omega
      have e5 : (113 <<< 23 : Nat) = 947912704 := by decide
      rw [e4, e5]
      have := (f32_sub_magic x c2).1
      exact or_high _ _ 31 (by omega)
    · have e3 : ¬ (x / 1024 * 8388608 = 0) := by omega
      rw [if_neg e3, if_neg c2]
      exact or_high _ _ 31 (by omega)


/-! ## `float_to_half_rtne` in arithmetic form -/

theorem float_to_half_rtne_eq (ff : Nat) (h : ff < 4294967296) :
    float_to_half_rtne ff = rtne_mag (ff % 2147483648) + ff / 2147483648 * 32768 := by
  unfold rtne_mag
  have hfu : ff ^^^ (ff &&& 0x80000000) = ff % 2147483648 := xor_and_bit ff 31 h
  have hsign : u16 ((ff &&& 0x80000000) >>> 16) = ff / 2147483648 * 2 ^ 15 := by
    simp only [and_80000000, Nat.shiftRight_eq_div_pow, u16]
    omega
  have c1 : ((127 + 16) <<< 23 : Nat) = 1199570944 := by decide
  have c2 : (255 <<< 23 : Nat) = 2139095040 := by decide
  have c3 : (113 <<< 23 : Nat) = 947912704 := by decide
  have c4 : (((127 - 15) + (23 - 10) + 1) <<< 23 : Nat) = 1056964608 := by decide
  have c5 : u32 (u32 (u32 (2 ^ 32 - 112) <<< 23) + 0xfff) = 3355447295 := by decide
  simp only [float_to_half_rtne, hfu, hsign, c1, c2, c3, c4, c5]
  have hfult : ff % 2147483648 < 2147483648 := Nat.mod_lt _ (by norm_num)
  generalize ff % 2147483648 = fu at *
  by_cases b1 : 1199570944 ≤ fu
  · rw [if_pos b1, if_pos b1]
    apply or_high _ _ 15
    split <;> norm_num
  · rw [if_neg b1, if_neg b1]
    by_cases b2 : fu < 947912704
    · rw [if_pos b2, if_pos b2]
      obtain ⟨ha, hk⟩ := f32_add_denorm_magic fu b2
      rw [ha]
      have e : u16 (u32 (1056964608 + rne125 (f32_mag fu) + 2 ^ 32 - 1056964608))
          = rne125 (f32_mag fu) := by
        simp only [u16, u32]
        omega
      rw [e]
      exact or_high _ _ 15 (by omega)
    · rw [if_neg b2, if_neg b2]
      have e : u16 (u32 (u32 (fu + 3355447295) + (fu >>> 13 &&& 1)) >>> 13)
          = (fu - 939524096 + 4095 + fu / 8192 % 2) / 8192 := by
        simp only [u16, u32, and_1, Nat.shiftRight_eq_div_pow, Nat.reducePow]
        omega
      rw [e]
      exact or_high _ _ 15 (by omega)


/-! ## Shape of the converted pattern -/

theorem f32_mag_sign (p s : Nat) :
    f32_mag (p + s * 2147483648) = f32_mag p := by
  rw [f32_mag_eq, f32_mag_eq]
  have h1 : (p + s * 2147483648) / 8388608 % 256 = p / 8388608 % 256 := by omega
  have h2 : (p + s * 2147483648) % 8388608 = p % 8388608 := by omega
  rw [h1, h2]

theorem f32_signbit_add (p s : Nat) (hp : p < 2147483648) (hs : s < 2) :
    f32_signbit (p + s * 2147483648) = decide (s = 1) := by
  simp only [f32_signbit, and_80000000]
  rw [decide_eq_decide]
  omega

theorem f32_isNaN_add (p s : Nat) (hp : p < 2147483648) :
    f32_isNaN (p + s * 2147483648) = decide (2139095040 < p) := by
  simp only [f32_isNaN, and_7fffffff]
  rw [decide_eq_decide]
  omega

theorem f32_isInf_add (p s : Nat) (hp : p < 2147483648) :
    f32_isInf (p + s * 2147483648) = decide (p = 2139095040) := by
  simp only [f32_isInf, and_7fffffff]
  rw [decide_eq_decide]
  omega

/-- The pattern returned by `half_to_float` is a magnitude pattern `p` below `2 ^ 31`
plus the sign bit of `h` moved to bit 31; `p` is given in closed form for the normal
and the Inf/NaN exponent fields and by its exact magnitude for exponent field `0`. -/
theorem half_to_float_shape (hx : Nat) (h : hx < 65536) :
    ∃ p, half_to_float hx = p + hx / 32768 * 2147483648 ∧ p < 2147483648 ∧
      (31744 ≤ hx % 32768 → p = hx % 32768 * 8192 + 1879048192) ∧
      (hx % 32768 < 1024 → p < 947912704 ∧ f32_mag p = hx % 32768 * 2 ^ 125) ∧
      (1024 ≤ hx % 32768 → hx % 32768 < 31744 → p = hx % 32768 * 8192 + 939524096) := by
  rw [half_to_float_eq hx h]
  have hxlt : hx % 32768 < 32768 := Nat.mod_lt _ (by norm_num)
  generalize hx % 32768 = x at *
  by_cases c1 : 31744 ≤ x
  · rw [if_pos c1]
    exact ⟨_, rfl, by omega, fun _ => rfl, fun hh => by omega, fun _ hh => by omega⟩
  · rw [if_neg c1]
    by_cases c2 : x < 1024
    · rw [if_pos c2]
      have hs := f32_sub_magic x c2
      exact ⟨_, rfl, by omega, fun hh => by omega, fun _ => hs, fun hh => by omega⟩
    · rw [if_neg c2]
      exact ⟨_, rfl, by omega, fun hh => by omega, fun hh => by omega, fun _ _ => rfl⟩

theorem half_to_float_lt (hx : Nat) (h : hx < 65536) : half_to_float hx < 4294967296 := by
  obtain ⟨p, hp, hlt, -, -, -⟩ := half_to_float_shape hx h
  omega

/-! ## Values of finite binary16 patterns -/

theorem half_toRat_eq (h : Nat) :
    half_toRat h = (if h / 32768 % 2 = 1 then -1 else 1) * (half_mag h : ℚ) / 2 ^ 24 := by
  simp only [half_toRat, half_mag, and_1, and_1f, and_3ff, Nat.shiftRight_eq_div_pow,
    Nat.reducePow]
  generalize (if h / 32768 % 2 = 1 then (-1 : ℚ) else 1) = sg
  by_cases he : h / 1024 % 32 = 0
  · rw [if_pos he, if_pos he]
    rw [zpow_neg]
    norm_num
    ring
  · rw [if_neg he, if_neg he]
    obtain ⟨k, hk⟩ : ∃ k, h / 1024 % 32 = k + 1 := ⟨h / 1024 % 32 - 1, by omega⟩
    rw [hk]
    have e1 : ((k + 1 : ℕ) : ℤ) - 15 = (k : ℤ) - 14 := by push_cast; ring
    rw [e1, zpow_sub₀ (by norm_num : (2:ℚ) ≠ 0), zpow_natCast]
    simp only [Nat.add_sub_cancel]
    push_cast
    norm_num
    field_simp
    ring

theorem f32_toRat_add (p s : Nat) (hp : p < 2147483648) (hs : s < 2) :
    f32_toRat (p + s * 2147483648) = (if s = 1 then -1 else 1) * (f32_mag p : ℚ) / 2 ^ 149 := by
  simp only [f32_toRat, f32_mag_sign, f32_signbit_add p s hp hs, decide_eq_true_eq]

/-- The exact magnitude of `half_to_float h` for a finite `h`. -/
theorem f32_mag_half_to_float (h : Nat) (hh : h < 65536) (he : h / 1024 % 32 ≠ 31) :
    f32_mag (half_to_float h) = half_mag h * 2 ^ 125 := by
  obtain ⟨p, hp, hlt, -, h2, h3⟩ := half_to_float_shape h hh
  rw [hp, f32_mag_sign]
  by_cases c2 : h % 32768 < 1024
  · rw [(h2 c2).2, half_mag]
    have e0 : h / 1024 % 32 = 0 := by omega
    have e1 : h % 32768 = h % 1024 := by omega
    rw [if_pos e0, e1]
  · rw [h3 (by omega) (by omega), half_mag]
    have e0 : ¬ (h / 1024 % 32 = 0) := by omega
    rw [if_neg e0]
    have e1 : h % 32768 * 8192 + 939524096
        = (h / 1024 % 32 + 112) * 8388608 + h % 1024 * 8192 := by omega
    rw [e1, f32_mag_mk _ _ (by omega) (by omega) (by omega)]
    have e2 : h / 1024 % 32 + 112 - 1 = (h / 1024 % 32 - 1) + 112 := by omega
    rw [e2, Nat.pow_add]
    have e3 : 8388608 + h % 1024 * 8192 = (1024 + h % 1024) * 8192 := by omega
    rw [e3]
    have e4 : (2:Nat) ^ 125 = 8192 * 2 ^ 112 := by norm_num
    rw [e4]
    ring

/-- The value of `half_to_float h` is the binary16 value of `h`, for finite `h`. -/
theorem f32_toRat_half_to_float (h : Nat) (hh : h < 65536) (he : h / 1024 % 32 ≠ 31) :
    f32_toRat (half_to_float h) = half_toRat h := by
  have hm := f32_mag_half_to_float h hh he
  obtain ⟨p, hp, hlt, -, -, -⟩ := half_to_float_shape h hh
  have hsg : f32_signbit (half_to_float h) = decide (h / 32768 % 2 = 1) := by
    rw [hp, f32_signbit_add p _ hlt (by omega), decide_eq_decide]
    omega
  rw [half_toRat_eq, f32_toRat, hm, hsg]
  simp only [decide_eq_true_eq]
  generalize (if h / 32768 % 2 = 1 then (-1 : ℚ) else 1) = sg
  push_cast
  have e4 : (2:ℚ) ^ 149 = 2 ^ 125 * 2 ^ 24 := by norm_num
  rw [e4]
  field_simp
  ring

theorem rne125_exact (x : Nat) : rne125 (x * 2 ^ 125) = x := by
  have hp : 0 < 2 ^ 125 := Nat.two_pow_pos _
  have h1 : x * 2 ^ 125 / 2 ^ 125 = x := Nat.mul_div_cancel _ hp
  have h2 : x * 2 ^ 125 % 2 ^ 125 = 0 := Nat.mul_mod_left _ _
  have h3 : ¬ (2 ^ 124 < 0 ∨ (0 = 2 ^ 124 ∧ x % 2 = 1)) := by
    have : 0 < 2 ^ 124 := Nat.two_pow_pos _
    omega
  rw [rne125, h1, h2, if_neg h3]
  rfl

theorem abs_f32_toRat (f : Nat) : |f32_toRat f| = (f32_mag f : ℚ) / 2 ^ 149 := by
  have hnn : (0 : ℚ) ≤ (f32_mag f : ℚ) / 2 ^ 149 := by positivity
  unfold f32_toRat
  by_cases hs : f32_signbit f = true
  · rw [if_pos hs, neg_one_mul, neg_div, abs_neg, abs_of_nonneg hnn]
  · rw [if_neg hs, one_mul, abs_of_nonneg hnn]

/-- Splitting a 32 bit pattern into its magnitude bits and its sign bit. -/
theorem f32_split (f : Nat) (hf : f < 4294967296) :
    ∃ fu s, f = fu + s * 2147483648 ∧ fu < 2147483648 ∧ s < 2 ∧
      f % 2147483648 = fu ∧ f / 2147483648 = s :=
  ⟨f % 2147483648, f / 2147483648, by omega, by omega, by omega, rfl, rfl⟩

theorem f32_mag_65520 : f32_mag 1199566848 = 65520 * 2 ^ 149 := by
  rw [f32_mag_eq]; norm_num

/-- A magnitude is at least `65520` exactly from the pattern `0x477ff000` on. -/
theorem le_abs_f32_toRat_65520 (fu s : Nat) (hfu : fu < 2147483648) :
    (65520 : ℚ) ≤ |f32_toRat (fu + s * 2147483648)| ↔ 1199566848 ≤ fu := by
  rw [abs_f32_toRat, f32_mag_sign, le_div_iff₀ (by positivity)]
  have h1 : (65520 : ℚ) * 2 ^ 149 = ((f32_mag 1199566848 : ℕ) : ℚ) := by
    rw [f32_mag_65520]; push_cast; ring
  rw [h1, Nat.cast_le]
  constructor
  · intro h
    by_contra hn
    have := f32_mag_lt fu 1199566848 (by norm_num) (by omega)
    omega
  · intro h
    exact f32_mag_le _ _ hfu h

theorem rtne_mag_le (fu : Nat) (hfu : fu < 2147483648) : rtne_mag fu ≤ 32256 := by
  unfold rtne_mag
  by_cases b1 : 1199570944 ≤ fu
  · rw [if_pos b1]; split <;> omega
  · rw [if_neg b1]
    by_cases b2 : fu < 947912704
    · rw [if_pos b2]
      have hk := (f32_add_denorm_magic fu b2).2
      omega
    · rw [if_neg b2]; omega

theorem rtne_mag_inf_iff (fu : Nat) (hfu : fu < 2147483648) :
    rtne_mag fu = 31744 ↔ (1199566848 ≤ fu ∧ fu ≤ 2139095040) := by
  unfold rtne_mag
  by_cases b1 : 1199570944 ≤ fu
  · rw [if_pos b1]; split <;> omega
  · rw [if_neg b1]
    by_cases b2 : fu < 947912704
    · rw [if_pos b2]
      have hk := (f32_add_denorm_magic fu b2).2
      omega
    · rw [if_neg b2]; omega

theorem rtne_mag_nan_iff (fu : Nat) (hfu : fu < 2147483648) :
    31744 < rtne_mag fu ↔ 2139095040 < fu := by
  unfold rtne_mag
  by_cases b1 : 1199570944 ≤ fu
  · rw [if_pos b1]; split <;> omega
  · rw [if_neg b1]
    by_cases b2 : fu < 947912704
    · rw [if_pos b2]
      have hk := (f32_add_denorm_magic fu b2).2
      omega
    · rw [if_neg b2]; omega

/-! ## Comparison layer -/

theorem half_to_float_split (h : Nat) (hh : h < 65536) :
    half_to_float h = half_to_float (h % 32768) + h / 32768 * 2147483648 ∧
    half_to_float (h % 32768) < 2147483648 := by
  have hx : h % 32768 < 65536 := by omega
  have e1 : h % 32768 % 32768 = h % 32768 := by omega
  have e2 : h % 32768 / 32768 = 0 := by omega
  have hs := half_to_float_eq (h % 32768) hx
  rw [e1, e2, Nat.zero_mul, Nat.add_zero] at hs
  have hf := half_to_float_eq h hh
  rw [← hs] at hf
  refine ⟨hf, ?_⟩
  have := half_to_float_lt h hh
  obtain ⟨p, hp, hlt, -, -, -⟩ := half_to_float_shape (h % 32768) hx
  rw [e2] at hp
  omega

/-- On patterns with a clear sign bit, `half_to_float` is strictly increasing. -/
theorem half_to_float_strict (x y : Nat) (hy : y < 32768) (hxy : x < y) :
    half_to_float x < half_to_float y := by
  obtain ⟨p, hp, hplt, p1, p2, p3⟩ := half_to_float_shape x (by omega)
  obtain ⟨q, hq, hqlt, q1, q2, q3⟩ := half_to_float_shape y (by omega)
  have ex : x % 32768 = x := by omega
  have ey : y % 32768 = y := by omega
  have ex2 : x / 32768 = 0 := by omega
  have ey2 : y / 32768 = 0 := by omega
  rw [ex] at p1 p2 p3
  rw [ey] at q1 q2 q3
  rw [hp, hq, ex2, ey2]
  simp only [Nat.zero_mul, Nat.add_zero]
  by_cases cy : y < 1024
  · obtain ⟨-, hmq⟩ := q2 cy
    obtain ⟨-, hmp⟩ := p2 (by omega)
    apply (f32_mag_lt_iff p q hplt hqlt).mp
    rw [hmp, hmq]
    exact Nat.mul_lt_mul_of_pos_right hxy (Nat.two_pow_pos _)
  · by_cases cx : x < 1024
    · have := (p2 cx).1
      by_cases cy2 : 31744 ≤ y
      · have := q1 cy2; omega
      · have := q3 (by omega) (by omega); omega
    · by_cases cy2 : 31744 ≤ y
      · have := q1 cy2
        by_cases cx2 : 31744 ≤ x
        · have := p1 cx2; omega
        · have := p3 (by omega) (by omega); omega
      · have := q3 (by omega) (by omega)
        have := p3 (by omega) (by omega)
        omega

theorem half_to_float_zero : half_to_float 0 = 0 := by decide

theorem half_to_float_inj (x y : Nat) (hx : x < 32768) (hy : y < 32768)
    (h : half_to_float x = half_to_float y) : x = y := by
  rcases Nat.lt_trichotomy x y with c | c | c
  · have := half_to_float_strict x y hy c; omega
  · exact c
  · have := half_to_float_strict y x hx c; omega

theorem half_to_float_eq_zero (x : Nat) (hx : x < 32768) (h : half_to_float x = 0) :
    x = 0 := by
  apply half_to_float_inj x 0 hx (by norm_num)
  rw [h, half_to_float_zero]

theorem f32_isNaN_half_to_float (h : Nat) (hh : h < 65536) :
    f32_isNaN (half_to_float h) = isnan h := by
  obtain ⟨p, hp, hlt, h1, h2, h3⟩ := half_to_float_shape h hh
  rw [hp, f32_isNaN_add p _ hlt]
  simp only [isnan, and_7fff, decide_eq_decide]
  have hxlt : h % 32768 < 32768 := Nat.mod_lt _ (by norm_num)
  by_cases c1 : 31744 ≤ h % 32768
  · have := h1 c1
    omega
  · by_cases c2 : h % 32768 < 1024
    · have := (h2 c2).1
      omega
    · have := h3 (by omega) (by omega)
      omega

theorem f32_val_add (p s : Nat) (hp : p < 2147483648) (hs : s < 2) :
    f32_val (p + s * 2147483648) = if s = 1 then -(f32_mag p : Int) else (f32_mag p : Int) := by
  simp only [f32_val, f32_mag_sign, f32_signbit_add p s hp hs, decide_eq_true_eq]

theorem f32_mag_zero : f32_mag 0 = 0 := f32_mag_small 0 (by norm_num)

theorem f32_mag_eq_zero (p : Nat) (hp : p < 2147483648) (h : f32_mag p = 0) : p = 0 :=
  f32_mag_inj p 0 hp (by norm_num) (by rw [h, f32_mag_zero])

/-! ## Rounding to the nearest integer, ties to even -/

theorem rne_aux (q r H : ℕ) (hH : 0 < H) (hr : r < 2 * H) :
    |((q + (if H < r ∨ (r = H ∧ q % 2 = 1) then 1 else 0) : ℕ) : ℚ)
        - ((q * (2 * H) + r : ℕ) : ℚ) / (2 * H)| ≤ 1 / 2 ∧
    (|((q + (if H < r ∨ (r = H ∧ q % 2 = 1) then 1 else 0) : ℕ) : ℚ)
        - ((q * (2 * H) + r : ℕ) : ℚ) / (2 * H)| = 1 / 2 →
      (q + (if H < r ∨ (r = H ∧ q % 2 = 1) then 1 else 0)) % 2 = 0) := by
  have hHq : (0 : ℚ) < (H : ℚ) := by exact_mod_cast hH
  have hrq : (r : ℚ) < 2 * H := by exact_mod_cast hr
  have hy : ((q * (2 * H) + r : ℕ) : ℚ) / (2 * H) = q + (r : ℚ) / (2 * H) := by
    push_cast
    field_simp
  rw [hy]
  have hd0 : (0 : ℚ) ≤ (r : ℚ) / (2 * H) := by positivity
  have hd1 : (r : ℚ) / (2 * H) < 1 := by
    rw [div_lt_one (by positivity)]; exact hrq
  have hhalf : (r : ℚ) / (2 * H) = 1 / 2 ↔ r = H := by
    rw [div_eq_iff (by positivity)]
    constructor
    · intro h
      have : (r : ℚ) = H := by linarith
      exact_mod_cast this
    · intro h
      rw [h]; ring
  by_cases c : H < r ∨ (r = H ∧ q % 2 = 1)
  · rw [if_pos c]
    have hge : (1 : ℚ) / 2 ≤ (r : ℚ) / (2 * H) := by
      rw [le_div_iff₀ (by positivity)]
      rcases c with c | ⟨c, -⟩
      · have : (H : ℚ) < r := by exact_mod_cast c
        linarith
      · rw [c]; linarith
    have hk : ((q + 1 : ℕ) : ℚ) - (q + (r : ℚ) / (2 * H)) = 1 - (r : ℚ) / (2 * H) := by
      push_cast; ring
    rw [hk, abs_of_nonneg (by linarith)]
    refine ⟨by linarith, fun he => ?_⟩
    have : r = H := hhalf.mp (by linarith)
    rcases c with c | ⟨-, c⟩
    · omega
    · omega
  · rw [if_neg c]
    have hle : (r : ℚ) / (2 * H) ≤ 1 / 2 := by
      rw [div_le_iff₀ (by positivity)]
      have : r ≤ H := by omega
      have : (r : ℚ) ≤ H := by exact_mod_cast this
      linarith
    have hk : ((q + 0 : ℕ) : ℚ) - (q + (r : ℚ) / (2 * H)) = -((r : ℚ) / (2 * H)) := by
      push_cast; ring
    rw [hk, abs_neg, abs_of_nonneg hd0]
    refine ⟨hle, fun he => ?_⟩
    have : r = H := hhalf.mp he
    omega

/-- The result of `rne125` is an integer nearest to `x / 2 ^ 125`, and the even one
when `x / 2 ^ 125` lies halfway between two integers. -/
theorem rne125_spec (x : Nat) :
    |(rne125 x : ℚ) - (x : ℚ) / 2 ^ 125| ≤ 1 / 2 ∧
    (|(rne125 x : ℚ) - (x : ℚ) / 2 ^ 125| = 1 / 2 → rne125 x % 2 = 0) := by
  have h := rne_aux (x / 2 ^ 125) (x % 2 ^ 125) (2 ^ 124) (Nat.two_pow_pos _)
    (by have := Nat.mod_lt x (Nat.two_pow_pos 125); omega)
  have e1 : (2 : ℕ) * 2 ^ 124 = 2 ^ 125 := by norm_num
  have e2 : (2 : ℚ) * ((2 ^ 124 : ℕ) : ℚ) = 2 ^ 125 := by norm_num
  have e3 : x / 2 ^ 125 * 2 ^ 125 + x % 2 ^ 125 = x := Nat.div_add_mod' x (2 ^ 125)
  rw [e1, e2, e3] at h
  exact h


theorem f32_mag_magic : f32_mag 947912704 = 2 ^ 135 := by
  rw [f32_mag_eq]; norm_num

/-- A magnitude is below `2 ^ (-14)` exactly for patterns below `113 << 23`. -/
theorem abs_f32_toRat_lt_min (fu s : Nat) (hfu : fu < 2147483648) :
    |f32_toRat (fu + s * 2147483648)| < (2 : ℚ) ^ (-14 : ℤ) ↔ fu < 947912704 := by
  rw [abs_f32_toRat, f32_mag_sign, div_lt_iff₀ (by positivity)]
  have h1 : (2 : ℚ) ^ (-14 : ℤ) * 2 ^ 149 = ((f32_mag 947912704 : ℕ) : ℚ) := by
    rw [f32_mag_magic, zpow_neg]; push_cast; norm_num
  rw [h1, Nat.cast_lt]
  exact f32_mag_lt_iff fu 947912704 hfu (by norm_num)

/-! ## Round to nearest even in the normal range -/

theorem half_mag_mk (e m : Nat) (hm : m < 1024) (he : 1 ≤ e) (he2 : e ≤ 31) :
    half_mag (e * 1024 + m) = (1024 + m) * 2 ^ (e - 1) := by
  have h1 : (e * 1024 + m) / 1024 % 32 = e := by omega
  have h2 : (e * 1024 + m) % 1024 = m := by omega
  rw [half_mag, h1, h2, if_neg (by omega)]

theorem half_mag_small (m : Nat) (hm : m < 1024) : half_mag m = m := by
  have h1 : m / 1024 % 32 = 0 := by omega
  have h2 : m % 1024 = m := by omega
  rw [half_mag, h1, h2, if_pos rfl]

theorem half_mag_sign (h : Nat) : half_mag (h % 32768) = half_mag h := by
  have h1 : h % 32768 / 1024 % 32 = h / 1024 % 32 := by omega
  have h2 : h % 32768 % 1024 = h % 1024 := by omega
  rw [half_mag, half_mag, h1, h2]

/-- The binary16 magnitude is strictly increasing in the pattern below the sign bit. -/
theorem half_mag_lt (a b : Nat) (hb : b < 32768) (hab : a < b) :
    half_mag a < half_mag b := by
  obtain ⟨ea, ma, rfl, hma, hea⟩ : ∃ e m, a = e * 1024 + m ∧ m < 1024 ∧ e ≤ 31 :=
    ⟨a / 1024, a % 1024, by omega, by omega, by omega⟩
  obtain ⟨eb, mb, rfl, hmb, heb⟩ : ∃ e m, b = e * 1024 + m ∧ m < 1024 ∧ e ≤ 31 :=
    ⟨b / 1024, b % 1024, by omega, by omega, by omega⟩
  rcases Nat.lt_trichotomy ea eb with h | h | h
  · have hb1 : half_mag (eb * 1024 + mb) = (1024 + mb) * 2 ^ (eb - 1) :=
      half_mag_mk eb mb hmb (by omega) heb
    have hpb : 0 < 2 ^ (eb - 1) := Nat.two_pow_pos _
    rcases Nat.eq_zero_or_pos ea with h0 | h0
    · subst h0
      rw [hb1]
      simp only [Nat.zero_mul, Nat.zero_add]
      rw [half_mag_small ma hma]
      nlinarith
    · rw [hb1, half_mag_mk ea ma hma h0 hea]
      have hpow : 2 ^ (ea - 1) * 2 ≤ 2 ^ (eb - 1) := by
        rw [← Nat.pow_succ]
        exact Nat.pow_le_pow_right (by norm_num) (by omega)
      have hpa : 0 < 2 ^ (ea - 1) := Nat.two_pow_pos _
      nlinarith
  · subst h
    have hm : ma < mb := by omega
    rcases Nat.eq_zero_or_pos ea with h0 | h0
    · subst h0
      simp only [Nat.zero_mul, Nat.zero_add]
      rw [half_mag_small ma hma, half_mag_small mb hmb]
      exact hm
    · rw [half_mag_mk ea ma hma h0 hea, half_mag_mk ea mb hmb h0 hea]
      have hpa : 0 < 2 ^ (ea - 1) := Nat.two_pow_pos _
      nlinarith
  · omega

theorem half_mag_le (a b : Nat) (hb : b < 32768) (hab : a ≤ b) :
    half_mag a ≤ half_mag b := by
  rcases Nat.eq_or_lt_of_le hab with h | h
  · rw [h]
  · exact Nat.le_of_lt (half_mag_lt a b hb h)

/-- The bracket of a binary32 magnitude in the normal binary16 range: with `T` the
truncated pattern, the magnitude is `(A + d) * u`, the binary16 neighbours `T` and
`T + 1` have magnitudes `A * u` and `(A + 8192) * u`, and `rtne_mag` picks `T` or
`T + 1` according to the discarded bits `d`, ties to the even pattern. -/
theorem rtne_mag_bracket (fu : Nat) (h1 : 947912704 ≤ fu) (h2 : fu < 1199566848) :
    ∃ T u A d, 0 < u ∧ 0 < A ∧ d < 8192 ∧ 1024 ≤ T ∧ T < 31744 ∧
      T = (fu / 8388608 - 112) * 1024 + fu / 8192 % 1024 ∧
      f32_mag fu = (A + d) * u ∧
      half_mag T * 2 ^ 125 = A * u ∧
      half_mag (T + 1) * 2 ^ 125 = (A + 8192) * u ∧
      ((rtne_mag fu = T ∧ (d < 4096 ∨ (d = 4096 ∧ T % 2 = 0))) ∨
       (rtne_mag fu = T + 1 ∧ (4096 < d ∨ (d = 4096 ∧ T % 2 = 1)))) ∧
      rtne_mag fu < 31744 := by
  obtain ⟨E, m, rfl, hm, hE1, hE2⟩ :
      ∃ E m, fu = E * 8388608 + m ∧ m < 8388608 ∧ 113 ≤ E ∧ E ≤ 142 :=
    ⟨fu / 8388608, fu % 8388608, by omega, by omega, by omega, by omega⟩
  obtain ⟨e, rfl⟩ : ∃ e, E = e + 112 := ⟨E - 112, by omega⟩
  obtain ⟨mT, d, rfl, hd, hmT⟩ : ∃ mT d, m = mT * 8192 + d ∧ d < 8192 ∧ mT < 1024 :=
    ⟨m / 8192, m % 8192, by omega, by omega, by omega⟩
  have hX := f32_mag_mk (e + 112) (mT * 8192 + d) hm (by omega) (by omega)
  have hu : 2 ^ (e - 1) * 2 ^ 125 = 8192 * 2 ^ (e + 112 - 1) := by
    have : e + 112 - 1 = (e - 1) + 112 := by omega
    rw [this, Nat.pow_add]
    have : (2:Nat) ^ 125 = 8192 * 2 ^ 112 := by norm_num
    rw [this]; ring
  refine ⟨e * 1024 + mT, 2 ^ (e + 112 - 1), (1024 + mT) * 8192, d, Nat.two_pow_pos _,
    by omega, hd, by omega, by omega, by omega, ?_, ?_, ?_, ?_, ?_⟩
  · rw [hX]; congr 1; omega
  · rw [half_mag_mk e mT hmT (by omega) (by omega), Nat.mul_assoc, hu]; ring
  · by_cases c : mT = 1023
    · subst c
      have e1 : e * 1024 + 1023 + 1 = (e + 1) * 1024 + 0 := by omega
      rw [e1, half_mag_mk (e + 1) 0 (by norm_num) (by omega) (by omega)]
      have e2 : e + 1 - 1 = (e - 1) + 1 := by omega
      rw [e2, Nat.pow_succ]
      calc (1024 + 0) * (2 ^ (e - 1) * 2) * 2 ^ 125
          = 2048 * (2 ^ (e - 1) * 2 ^ 125) := by ring
        _ = 2048 * (8192 * 2 ^ (e + 112 - 1)) := by rw [hu]
        _ = ((1024 + 1023) * 8192 + 8192) * 2 ^ (e + 112 - 1) := by ring
    · have e1 : e * 1024 + mT + 1 = e * 1024 + (mT + 1) := by omega
      rw [e1, half_mag_mk e (mT + 1) (by omega) (by omega) (by omega)]
      calc (1024 + (mT + 1)) * 2 ^ (e - 1) * 2 ^ 125
          = (1024 + (mT + 1)) * (2 ^ (e - 1) * 2 ^ 125) := by ring
        _ = (1024 + (mT + 1)) * (8192 * 2 ^ (e + 112 - 1)) := by rw [hu]
        _ = ((1024 + mT) * 8192 + 8192) * 2 ^ (e + 112 - 1) := by ring
  · rw [rtne_mag, if_neg (by omega), if_neg (by omega)]
    omega
  · rw [rtne_mag, if_neg (by omega), if_neg (by omega)]
    omega

theorem nearest_arith (p q W hn hg : ℚ) (hp : 0 < p) (hq0 : 0 ≤ q) (hqW : q < W)
    (hg0 : 0 ≤ hg) (hgb : hg ≤ p ∨ p + W ≤ hg)
    (hnc : (hn = p ∧ 2 * q ≤ W) ∨ (hn = p + W ∧ W ≤ 2 * q)) :
    |hn - (p + q)| ≤ |hg - (p + q)| ∧ |hn - (p + q)| < |-hg - (p + q)| ∧
    (|hg - (p + q)| = |hn - (p + q)| → hg ≠ hn → 2 * q = W) := by
  have hneg : |-hg - (p + q)| = hg + (p + q) := by
    rw [abs_of_nonpos (by linarith)]; ring
  rcases hnc with ⟨hh, hc⟩ | ⟨hh, hc⟩ <;> rw [hh] <;> rw [hh] at *
  · have e1 : |p - (p + q)| = q := by
      rw [abs_of_nonpos (by linarith)]; ring
    rw [e1, hneg]
    rcases hgb with hb | hb
    · have e2 : |hg - (p + q)| = p + q - hg := by
        rw [abs_of_nonpos (by linarith)]; ring
      rw [e2]
      refine ⟨by linarith, by linarith, fun h1 h2 => ?_⟩
      exact absurd (by linarith : hg = p) h2
    · have e2 : |hg - (p + q)| = hg - (p + q) := abs_of_nonneg (by linarith)
      rw [e2]
      exact ⟨by linarith, by linarith, fun h1 _ => by linarith⟩
  · have e1 : |p + W - (p + q)| = W - q := by
      rw [abs_of_nonneg (by linarith)]; ring
    rw [e1, hneg]
    rcases hgb with hb | hb
    · have e2 : |hg - (p + q)| = p + q - hg := by
        rw [abs_of_nonpos (by linarith)]; ring
      rw [e2]
      exact ⟨by linarith, by linarith, fun h1 _ => by linarith⟩
    · have e2 : |hg - (p + q)| = hg - (p + q) := abs_of_nonneg (by linarith)
      rw [e2]
      refine ⟨by linarith, by linarith, fun h1 h2 => ?_⟩
      exact absurd (by linarith : hg = p + W) h2

theorem half_scale (H K : ℕ) (h : H * 2 ^ 125 = K) : (H : ℚ) / 2 ^ 24 = (K : ℚ) / 2 ^ 149 := by
  rw [← h]
  push_cast
  have : (2 : ℚ) ^ 149 = 2 ^ 125 * 2 ^ 24 := by norm_num
  rw [this]
  field_simp
  ring


/-- Sign factor of a value: `-1` for a set and `1` for a clear sign bit. -/
theorem sign_cases (s : Nat) : (if s = 1 then (-1 : ℚ) else 1) = -1 ∨
    (if s = 1 then (-1 : ℚ) else 1) = 1 := by
  by_cases h : s = 1
  · left; rw [if_pos h]
  · right; rw [if_neg h]

/-- Distances between signed values with magnitudes `hn`, `hg`, `x`. -/
theorem signed_dist (σ τ hn hg x : ℚ) (hσ : σ = -1 ∨ σ = 1) (hτ : τ = -1 ∨ τ = 1) :
    |σ * hn - σ * x| = |hn - x| ∧
    ((τ = σ ∧ |τ * hg - σ * x| = |hg - x|) ∨ (τ ≠ σ ∧ |τ * hg - σ * x| = |-hg - x|)) := by
  rcases hσ with h1 | h1 <;> rcases hτ with h2 | h2 <;> rw [h1, h2]
  · refine ⟨?_, Or.inl ⟨rfl, ?_⟩⟩
    · rw [show (-1 : ℚ) * hn - -1 * x = -(hn - x) by ring, abs_neg]
    · rw [show (-1 : ℚ) * hg - -1 * x = -(hg - x) by ring, abs_neg]
  · refine ⟨?_, Or.inr ⟨by norm_num, ?_⟩⟩
    · rw [show (-1 : ℚ) * hn - -1 * x = -(hn - x) by ring, abs_neg]
    · rw [show (1 : ℚ) * hg - -1 * x = -(-hg - x) by ring, abs_neg]
  · refine ⟨?_, Or.inr ⟨by norm_num, ?_⟩⟩
    · rw [show (1 : ℚ) * hn - 1 * x = hn - x by ring]
    · rw [show (-1 : ℚ) * hg - 1 * x = -hg - x by ring]
  · refine ⟨?_, Or.inl ⟨rfl, ?_⟩⟩
    · rw [show (1 : ℚ) * hn - 1 * x = hn - x by ring]
    · rw [show (1 : ℚ) * hg - 1 * x = hg - x by ring]

/-- The nearest-even property of the normal branch, on magnitudes: `n = rtne_mag fu`
is at least as close to the magnitude of `fu` as any finite binary16 magnitude, a
value of the other sign is strictly farther, and a tie with a different binary16
magnitude forces `n` to be even. -/
theorem rtne_mag_nearest (fu : Nat) (h1 : 947912704 ≤ fu) (h2 : fu < 1199566848)
    (gm : Nat) (hgm : gm < 31744) :
    |(half_mag (rtne_mag fu) : ℚ) / 2 ^ 24 - (f32_mag fu : ℚ) / 2 ^ 149|
      ≤ |(half_mag gm : ℚ) / 2 ^ 24 - (f32_mag fu : ℚ) / 2 ^ 149| ∧
    |(half_mag (rtne_mag fu) : ℚ) / 2 ^ 24 - (f32_mag fu : ℚ) / 2 ^ 149|
      < |-((half_mag gm : ℚ) / 2 ^ 24) - (f32_mag fu : ℚ) / 2 ^ 149| ∧
    (|(half_mag gm : ℚ) / 2 ^ 24 - (f32_mag fu : ℚ) / 2 ^ 149|
        = |(half_mag (rtne_mag fu) : ℚ) / 2 ^ 24 - (f32_mag fu : ℚ) / 2 ^ 149| →
      (half_mag gm : ℚ) / 2 ^ 24 ≠ (half_mag (rtne_mag fu) : ℚ) / 2 ^ 24 →
      rtne_mag fu % 2 = 0) := by
  obtain ⟨T, u, A, d, hu, hA, hd, hT1, hT2, -, hX, hlo, hhi, hn, -⟩ :=
    rtne_mag_bracket fu h1 h2
  have hpos : (0 : ℚ) < 2 ^ 149 := by positivity
  have h24 : (0 : ℚ) < 2 ^ 24 := by norm_num
  have huq : (0 : ℚ) < (u : ℚ) / 2 ^ 149 := by
    have : (0 : ℚ) < (u : ℚ) := by exact_mod_cast hu
    exact div_pos this hpos
  have hAq : (0 : ℚ) < (A : ℚ) := by exact_mod_cast hA
  have hdq : (d : ℚ) < 8192 := by exact_mod_cast hd
  have hd0 : (0 : ℚ) ≤ (d : ℚ) := Nat.cast_nonneg d
  have ex : (f32_mag fu : ℚ) / 2 ^ 149
      = (A : ℚ) * ((u : ℚ) / 2 ^ 149) + (d : ℚ) * ((u : ℚ) / 2 ^ 149) := by
    rw [hX]; push_cast; ring
  have elo : (half_mag T : ℚ) / 2 ^ 24 = (A : ℚ) * ((u : ℚ) / 2 ^ 149) := by
    rw [half_scale _ _ hlo]; push_cast; ring
  have ehi : (half_mag (T + 1) : ℚ) / 2 ^ 24
      = (A : ℚ) * ((u : ℚ) / 2 ^ 149) + 8192 * ((u : ℚ) / 2 ^ 149) := by
    rw [half_scale _ _ hhi]; push_cast; ring
  generalize (u : ℚ) / 2 ^ 149 = w at huq ex elo ehi
  clear hX hlo hhi hpos
  have hg0 : (0 : ℚ) ≤ (half_mag gm : ℚ) / 2 ^ 24 :=
    div_nonneg (Nat.cast_nonneg _) h24.le
  have hgb : (half_mag gm : ℚ) / 2 ^ 24 ≤ (A : ℚ) * w ∨
      (A : ℚ) * w + 8192 * w ≤ (half_mag gm : ℚ) / 2 ^ 24 := by
    by_cases c : gm ≤ T
    · left
      rw [← elo]
      have : (half_mag gm : ℚ) ≤ (half_mag T : ℚ) := by
        exact_mod_cast half_mag_le gm T (by omega) c
      exact div_le_div_of_nonneg_right this h24.le
    · right
      rw [← ehi]
      have : (half_mag (T + 1) : ℚ) ≤ (half_mag gm : ℚ) := by
        exact_mod_cast half_mag_le (T + 1) gm (by omega) (by omega)
      exact div_le_div_of_nonneg_right this h24.le
  have hnc : ((half_mag (rtne_mag fu) : ℚ) / 2 ^ 24 = (A : ℚ) * w ∧
        2 * ((d : ℚ) * w) ≤ 8192 * w) ∨
      ((half_mag (rtne_mag fu) : ℚ) / 2 ^ 24 = (A : ℚ) * w + 8192 * w ∧
        8192 * w ≤ 2 * ((d : ℚ) * w)) := by
    rcases hn with ⟨hr, hc⟩ | ⟨hr, hc⟩
    · left
      rw [hr]
      refine ⟨elo, ?_⟩
      have : (d : ℚ) ≤ 4096 := by
        have : d ≤ 4096 := by omega
        exact_mod_cast this
      nlinarith
    · right
      rw [hr]
      refine ⟨ehi, ?_⟩
      have : (4096 : ℚ) ≤ (d : ℚ) := by
        have : 4096 ≤ d := by omega
        exact_mod_cast this
      nlinarith
  have key := nearest_arith ((A : ℚ) * w) ((d : ℚ) * w) (8192 * w) _ _
    (mul_pos hAq huq) (mul_nonneg hd0 huq.le) (mul_lt_mul_of_pos_right hdq huq) hg0 hgb hnc
  rw [← ex] at key
  refine ⟨key.1, key.2.1, fun he hne => ?_⟩
  have h2q := key.2.2 he hne
  have hd4 : (d : ℚ) = 4096 := by
    have : (2 * (d : ℚ) - 8192) * w = 0 := by linarith
    rcases mul_eq_zero.mp this with h | h
    · linarith
    · linarith
  have hd5 : d = 4096 := by exact_mod_cast hd4
  rcases hn with ⟨hr, hc⟩ | ⟨hr, hc⟩
  · rw [hr]; omega
  · rw [hr]; omega


theorem half_toRat_add (n s : Nat) (hn : n < 32768) (hs : s < 2) :
    half_toRat (n + s * 32768) = (if s = 1 then -1 else 1) * ((half_mag n : ℚ) / 2 ^ 24) := by
  have h1 : (n + s * 32768) / 32768 % 2 = s := by omega
  have h2 : (n + s * 32768) % 32768 = n := by omega
  rw [half_toRat_eq, h1, ← half_mag_sign, h2, mul_div_assoc]

theorem f32_toRat_add2 (p s : Nat) (hp : p < 2147483648) (hs : s < 2) :
    f32_toRat (p + s * 2147483648)
      = (if s = 1 then -1 else 1) * ((f32_mag p : ℚ) / 2 ^ 149) := by
  rw [f32_toRat_add p s hp hs, mul_div_assoc]

/-! ## Sign bit flips -/

/-- Exclusive or with a single bit `2 ^ s` of a value below `2 ^ (s + 1)`. -/
theorem xor_bit (x s : Nat) (hx : x < 2 ^ (s + 1)) :
    x ^^^ 2 ^ s = if x < 2 ^ s then x + 2 ^ s else x - 2 ^ s := by
  have hp : 2 ^ (s + 1) = 2 * 2 ^ s := by rw [Nat.pow_succ]; ring
  have hand : ∀ y, y < 2 ^ (s + 1) → 2 ^ s ≤ y → y &&& 2 ^ s = 2 ^ s := by
    intro y hy hle
    have h := and_shl_mask y s 1
    rw [Nat.shiftLeft_eq] at h
    norm_num at h
    rw [h]
    have : y / 2 ^ s = 1 := by
      apply Nat.div_eq_of_lt_le
      · simpa using hle
      · rw [hp] at hy; omega
    rw [this]
    norm_num
  by_cases c : x < 2 ^ s
  · rw [if_pos c]
    have hy : x + 2 ^ s < 2 ^ (s + 1) := by omega
    have h1 := xor_and_bit (x + 2 ^ s) s hy
    rw [hand _ hy (by omega)] at h1
    have h2 : (x + 2 ^ s) % 2 ^ s = x := by
      rw [Nat.add_mod_right, Nat.mod_eq_of_lt c]
    rw [h2] at h1
    calc x ^^^ 2 ^ s = ((x + 2 ^ s) ^^^ 2 ^ s) ^^^ 2 ^ s := by rw [h1]
      _ = x + 2 ^ s := by rw [Nat.xor_assoc, Nat.xor_self, Nat.xor_zero]
  · rw [if_neg c]
    have h1 := xor_and_bit x s hx
    rw [hand x hx (by omega)] at h1
    rw [h1]
    have : x % 2 ^ s = x - 2 ^ s := by
      rw [Nat.mod_eq_sub_mod (by omega), Nat.mod_eq_of_lt (by omega)]
    exact this

theorem xor_8000 (a : Nat) (ha : a < 65536) :
    a ^^^ 0x8000 = a % 32768 + (1 - a / 32768) * 32768 := by
  have h := xor_bit a 15 (by norm_num; exact ha)
  norm_num at h
  rw [h]
  split <;> omega

theorem xor_80000000 (a : Nat) (ha : a < 4294967296) :
    a ^^^ 0x80000000 = a % 2147483648 + (1 - a / 2147483648) * 2147483648 := by
  have h := xor_bit a 31 (by norm_num; exact ha)
  norm_num at h
  rw [h]
  split <;> omega

theorem op_neg_eq (a : Nat) (ha : a < 65536) :
    op_neg a = a % 32768 + (1 - a / 32768) * 32768 := by
  rw [op_neg, xor_8000 a ha, u16]
  omega

theorem abs_eq (a : Nat) : abs a = a % 32768 := by
  rw [abs, and_7fff, u16]
  omega


/-! ## Round trip on magnitude patterns -/

/-- On a pattern with a clear sign bit that is not a NaN, the magnitude part of
`float_to_half_rtne` undoes `half_to_float`. -/
theorem rtne_mag_half_to_float (x : Nat) (hx : x ≤ 31744) :
    rtne_mag (half_to_float x) = x := by
  obtain ⟨p, hp, hlt, h1, h2, h3⟩ := half_to_float_shape x (by omega)
  have e1 : x % 32768 = x := by omega
  have e2 : x / 32768 = 0 := by omega
  rw [e1] at h1 h2 h3
  rw [e2, Nat.zero_mul, Nat.add_zero] at hp
  rw [hp]
  by_cases c1 : x = 31744
  · have := h1 (by omega)
    rw [rtne_mag, if_pos (by omega), if_neg (by omega)]
    omega
  · by_cases c2 : x < 1024
    · obtain ⟨hlt2, hm⟩ := h2 c2
      rw [rtne_mag, if_neg (by omega), if_pos hlt2, hm, rne125_exact]
    · have hpe := h3 (by omega) (by omega)
      rw [rtne_mag, if_neg (by omega), if_neg (by omega), hpe]
      omega

/-- `float_to_half_rtne` on a magnitude pattern with a chosen sign bit. -/
theorem float_to_half_rtne_add (p s : Nat) (hp : p < 2147483648) (hs : s < 2) :
    float_to_half_rtne (p + s * 2147483648) = rtne_mag p + s * 32768 := by
  rw [float_to_half_rtne_eq _ (by omega)]
  have e1 : (p + s * 2147483648) % 2147483648 = p := by omega
  have e2 : (p + s * 2147483648) / 2147483648 = s := by omega
  rw [e1, e2]

/-- Decomposition of a 16 bit pattern into magnitude bits and sign bit. -/
theorem half_split (a : Nat) (ha : a < 65536) :
    ∃ x s, a = x + s * 32768 ∧ x < 32768 ∧ s < 2 ∧ a % 32768 = x ∧ a / 32768 = s :=
  ⟨a % 32768, a / 32768, by omega, by omega, by omega, rfl, rfl⟩

theorem half_to_float_add (x s : Nat) (hx : x < 32768) (hs : s < 2) :
    half_to_float (x + s * 32768) = half_to_float x + s * 2147483648 ∧
    half_to_float x < 2147483648 := by
  have h := half_to_float_split (x + s * 32768) (by omega)
  have e1 : (x + s * 32768) % 32768 = x := by omega
  have e2 : (x + s * 32768) / 32768 = s := by omega
  rw [e1, e2] at h
  exact h

theorem isnan_add (x s : Nat) (hx : x < 32768) :
    isnan (x + s * 32768) = decide (31744 < x) := by
  simp only [isnan, and_7fff, decide_eq_decide]
  omega

theorem f32_neg_add (p s : Nat) (hp : p < 2147483648) (hs : s < 2) :
    f32_neg (p + s * 2147483648) = p + (1 - s) * 2147483648 := by
  rw [f32_neg, xor_80000000 _ (by omega)]
  have e1 : (p + s * 2147483648) % 2147483648 = p := by omega
  have e2 : (p + s * 2147483648) / 2147483648 = s := by omega
  rw [e1, e2]

theorem f32_abs_add (p s : Nat) (hp : p < 2147483648) :
    f32_abs (p + s * 2147483648) = p := by
  rw [f32_abs, and_7fffffff]
  omega

/-! ## Order of the converted values -/

theorem hmag_lt_iff (x y : Nat) (hx : x < 32768) (hy : y < 32768) :
    f32_mag (half_to_float x) < f32_mag (half_to_float y) ↔ x < y := by
  have hx2 := (half_to_float_add x 0 hx (by omega)).2
  have hy2 := (half_to_float_add y 0 hy (by omega)).2
  rw [f32_mag_lt_iff _ _ hx2 hy2]
  constructor
  · intro h
    by_contra hc
    rcases Nat.eq_or_lt_of_le (Nat.le_of_not_lt hc) with e | e
    · rw [e] at h; omega
    · have := half_to_float_strict y x hx e; omega
  · exact half_to_float_strict x y hy

theorem hmag_eq_zero_iff (x : Nat) (hx : x < 32768) :
    f32_mag (half_to_float x) = 0 ↔ x = 0 := by
  constructor
  · intro h
    by_contra hc
    have := (hmag_lt_iff 0 x (by norm_num) hx).mpr (by omega)
    rw [half_to_float_zero, f32_mag_zero] at this
    omega
  · intro h
    rw [h, half_to_float_zero, f32_mag_zero]

theorem f32_val_half_to_float (x s : Nat) (hx : x < 32768) (hs : s < 2) :
    f32_val (half_to_float (x + s * 32768))
      = if s = 1 then -(f32_mag (half_to_float x) : Int)
        else (f32_mag (half_to_float x) : Int) := by
  obtain ⟨hf, hlt⟩ := half_to_float_add x s hx hs
  rw [hf, f32_val_add _ _ hlt hs]

theorem sign_magnitude_key_add (x s : Nat) (hx : x < 32768) (hs : s < 2) :
    sign_magnitude_key (x + s * 32768) = if s = 1 then -(x : Int) else (x : Int) := by
  have e1 : (x + s * 32768) % 32768 = x := by omega
  rw [sign_magnitude_key, and_7fff, and_8000, e1]
  by_cases c : s = 1
  · rw [if_pos c, if_neg (by omega)]
  · rw [if_neg c, if_pos (by omega)]

/-- The `float` values of two halves are ordered as their sign-magnitude keys. -/
theorem f32_val_order (a b : Nat) (ha : a < 65536) (hb : b < 65536) :
    (f32_val (half_to_float a) < f32_val (half_to_float b)
      ↔ sign_magnitude_key a < sign_magnitude_key b) ∧
    (f32_val (half_to_float a) ≤ f32_val (half_to_float b)
      ↔ sign_magnitude_key a ≤ sign_magnitude_key b) ∧
    (f32_val (half_to_float a) = f32_val (half_to_float b)
      ↔ sign_magnitude_key a = sign_magnitude_key b) := by
  obtain ⟨x, s, rfl, hx, hs, -, -⟩ := half_split a ha
  obtain ⟨y, t, rfl, hy, ht, -, -⟩ := half_split b hb
  rw [f32_val_half_to_float x s hx hs, f32_val_half_to_float y t hy ht,
    sign_magnitude_key_add x s hx hs, sign_magnitude_key_add y t hy ht]
  have k1 := hmag_lt_iff x y hx hy
  have k2 := hmag_lt_iff y x hy hx
  have k3 := hmag_eq_zero_iff x hx
  have k4 := hmag_eq_zero_iff y hy
  generalize f32_mag (half_to_float x) = mx at k1 k2 k3 k4
  generalize f32_mag (half_to_float y) = my at k1 k2 k3 k4
  by_cases c1 : s = 1 <;> by_cases c2 : t = 1 <;> simp only [c1, c2, if_true, if_false] <;>
    omega

theorem f32_isNaN_half_to_float_false (a : Nat) (ha : a < 65536) (hn : isnan a = false) :
    f32_isNaN (half_to_float a) = false := by
  rw [f32_isNaN_half_to_float a ha, hn]

/-- The comparison operators on non-NaN halves, as comparisons of the keys. -/
theorem op_iff_key (a b : Nat) (ha : a < 65536) (hb : b < 65536)
    (na : isnan a = false) (nb : isnan b = false) :
    (op_lt a b = true ↔ sign_magnitude_key a < sign_magnitude_key b) ∧
    (op_le a b = true ↔ sign_magnitude_key a ≤ sign_magnitude_key b) ∧
    (op_eq a b = true ↔ sign_magnitude_key a = sign_magnitude_key b) := by
  have h1 := f32_isNaN_half_to_float_false a ha na
  have h2 := f32_isNaN_half_to_float_false b hb nb
  obtain ⟨k1, k2, k3⟩ := f32_val_order a b ha hb
  simp only [op_lt, op_le, op_eq, f32_lt, f32_le, f32_eq, h1, h2, Bool.not_false,
    Bool.true_and, decide_eq_true_eq]
  exact ⟨k1, k2, k3⟩

theorem sign_magnitude_key_eq_iff (a b : Nat) (ha : a < 65536) (hb : b < 65536) :
    sign_magnitude_key a = sign_magnitude_key b ↔
      (a = b ∨ (a % 32768 = 0 ∧ b % 32768 = 0)) := by
  obtain ⟨x, s, rfl, hx, hs, e1, -⟩ := half_split a ha
  obtain ⟨y, t, rfl, hy, ht, e2, -⟩ := half_split b hb
  rw [sign_magnitude_key_add x s hx hs, sign_magnitude_key_add y t hy ht, e1, e2]
  by_cases c1 : s = 1 <;> by_cases c2 : t = 1 <;> simp only [c1, c2, if_true, if_false] <;>
    omega


theorem op_eq_nonnan (a b : Nat) (ha : a < 65536) (hb : b < 65536)
    (h : op_eq a b = true) : isnan a = false ∧ isnan b = false := by
  have h1 := f32_isNaN_half_to_float a ha
  have h2 := f32_isNaN_half_to_float b hb
  simp only [op_eq, f32_eq, h1, h2, Bool.and_eq_true, Bool.not_eq_true'] at h
  exact ⟨h.1.1, h.1.2⟩

/-! ## Values of the constants -/

/-- Value of a positive normal binary32 pattern given by its fields. -/
theorem f32_toRat_mk (e m : Nat) (hm : m < 8388608) (he : 1 ≤ e) (he2 : e ≤ 254) :
    f32_toRat (e * 8388608 + m) = ((8388608 + m) * 2 ^ (e - 1) : ℕ) / 2 ^ 149 := by
  rw [f32_toRat, f32_signbit_lt _ (by omega), f32_mag_mk e m hm he (by omega)]
  simp

theorem f32_toRat_neg_mk (e m : Nat) (hm : m < 8388608) (he : 1 ≤ e) (he2 : e ≤ 254) :
    f32_toRat (e * 8388608 + m + 1 * 2147483648)
      = -(((8388608 + m) * 2 ^ (e - 1) : ℕ) / 2 ^ 149) := by
  rw [f32_toRat_add2 _ 1 (by omega) (by omega), f32_mag_mk e m hm he (by omega)]
  simp

/-- Bounds on the binary16 magnitude of finite patterns, in units of `2 ^ (-24)`. -/
theorem half_mag_bounds (h : Nat) (hf : h % 32768 < 31744) :
    half_mag h ≤ 2047 * 2 ^ 29 ∧ (1024 ≤ h % 32768 → 1024 ≤ half_mag h) ∧
    (0 < h % 32768 → 1 ≤ half_mag h) := by
  rw [← half_mag_sign h]
  have hmax : half_mag 31743 = 2047 * 2 ^ 29 := by
    have := half_mag_mk 30 1023 (by norm_num) (by norm_num) (by norm_num)
    norm_num at this ⊢
    exact this
  have hmin : half_mag 1024 = 1024 := by
    have := half_mag_mk 1 0 (by norm_num) (by norm_num) (by norm_num)
    norm_num at this ⊢
    exact this
  have hone : half_mag 1 = 1 := half_mag_small 1 (by norm_num)
  refine ⟨?_, ?_, ?_⟩
  · rw [← hmax]; exact half_mag_le _ _ (by norm_num) (by omega)
  · intro h1; rw [← hmin]; exact half_mag_le _ _ (by omega) h1
  · intro h1; rw [← hone]; exact half_mag_le _ _ (by omega) (by omega)

theorem isfinite_iff (h : Nat) : isfinite h = true ↔ h % 32768 < 31744 := by
  simp only [isfinite, isinf, isnan, and_7fff, Bool.and_eq_true, Bool.not_eq_true',
    decide_eq_false_iff_not]
  omega

/-- The value of a finite half as its signed magnitude over `2 ^ 24`. -/
theorem f32_toRat_finite (h : Nat) (hh : h < 65536) (hf : h % 32768 < 31744) :
    f32_toRat (half_to_float h)
      = (if h / 32768 % 2 = 1 then -1 else 1) * (half_mag h : ℚ) / 2 ^ 24 := by
  rw [f32_toRat_half_to_float h hh (by omega), half_toRat_eq]

/-! ## Monotonicity of `float_to_half_rtne` -/

theorem rne125_mono (x y : Nat) (h : x ≤ y) : rne125 x ≤ rne125 y := by
  unfold rne125
  simp only [Nat.reducePow]
  split <;> split <;> omega

theorem rtne_mag_zero : rtne_mag 0 = 0 := by
  rw [rtne_mag, if_neg (by norm_num), if_pos (by norm_num), f32_mag_zero]
  exact rne125_exact 0

/-- The magnitude part of `float_to_half_rtne` is non-decreasing on non-NaN magnitude
patterns, across the subnormal, normal and overflow branches. -/
theorem rtne_mag_mono (fu gu : Nat) (h : fu ≤ gu) (hg : gu ≤ 2139095040) :
    rtne_mag fu ≤ rtne_mag gu := by
  by_cases g1 : 1199570944 ≤ gu
  · have hgv : rtne_mag gu = 31744 := by
      rw [rtne_mag, if_pos g1, if_neg (by omega)]
    have := rtne_mag_le fu (by omega)
    have h3 := rtne_mag_nan_iff fu (by omega)
    omega
  · by_cases g2 : gu < 947912704
    · rw [rtne_mag, if_neg (by omega), if_pos (by omega), rtne_mag, if_neg g1, if_pos g2]
      exact rne125_mono _ _ (f32_mag_le fu gu (by omega) h)
    · by_cases f2 : fu < 947912704
      · have hk := (f32_add_denorm_magic fu f2).2
        rw [rtne_mag, if_neg (by omega), if_pos f2, rtne_mag, if_neg g1, if_neg g2]
        omega
      · rw [rtne_mag, if_neg (by omega), if_neg f2, rtne_mag, if_neg g1, if_neg g2]
        obtain ⟨Tf, df, rfl, hdf⟩ : ∃ T d, fu = 939524096 + T * 8192 + d ∧ d < 8192 :=
          ⟨(fu - 939524096) / 8192, (fu - 939524096) % 8192, by omega, by omega⟩
        obtain ⟨Tg, dg, rfl, hdg⟩ : ∃ T d, gu = 939524096 + T * 8192 + d ∧ d < 8192 :=
          ⟨(gu - 939524096) / 8192, (gu - 939524096) % 8192, by omega, by omega⟩
        have e1 : (939524096 + Tf * 8192 + df) / 8192 % 2 = Tf % 2 := by omega
        have e2 : (939524096 + Tg * 8192 + dg) / 8192 % 2 = Tg % 2 := by omega
        have e3 : 939524096 + Tf * 8192 + df - 939524096 = Tf * 8192 + df := by omega
        have e4 : 939524096 + Tg * 8192 + dg - 939524096 = Tg * 8192 + dg := by omega
        rw [e1, e2, e3, e4]
        rcases Nat.lt_trichotomy Tf Tg with c | c | c
        · have a1 : (Tf * 8192 + df + 4095 + Tf % 2) / 8192 ≤ Tf + 1 := by omega
          have a2 : Tg ≤ (Tg * 8192 + dg + 4095 + Tg % 2) / 8192 := by omega
          omega
        · subst c
          have : df ≤ dg := by omega
          omega
        · omega

/-! ## Exact `float` operations: adding zero and multiplying by one -/

/-- Rounding the magnitude of a finite pattern gives the pattern back. -/
theorem f32_round_mag (p : Nat) (hp : p < 2139095040) : f32_round (f32_mag p) = p := by
  obtain ⟨e, m, rfl, hm, he⟩ : ∃ e m, p = e * 8388608 + m ∧ m < 8388608 ∧ e ≤ 254 :=
    ⟨p / 8388608, p % 8388608, by omega, by omega, by omega⟩
  rcases Nat.lt_or_ge e 2 with c | c
  · have hsmall : f32_mag (e * 8388608 + m) = e * 8388608 + m := by
      rcases Nat.eq_zero_or_pos e with h0 | h0
      · subst h0
        simp only [Nat.zero_mul, Nat.zero_add]
        exact f32_mag_small m hm
      · have e1 : e = 1 := by omega
        subst e1
        rw [f32_mag_mk 1 m hm (by norm_num) (by norm_num)]
        norm_num
    rw [hsmall, f32_round, f32_round_search_small _ _ (by norm_num; omega)]
    exact if_neg (by omega)
  · rw [f32_mag_mk e m hm (by omega) (by omega),
      f32_round_exact (8388608 + m) (e - 1) (by omega) (by omega) (by omega) (by omega)]
    omega

theorem f32_round_rat_at_mul (x d sh : Nat) (hd : 0 < d) (hs : 1 ≤ sh) :
    f32_round_rat_at (x * d) d sh = f32_round_at x sh := by
  obtain ⟨k, rfl⟩ : ∃ k, sh = k + 1 := ⟨sh - 1, by omega⟩
  have hD : d <<< (k + 1) = d * 2 ^ (k + 1) := Nat.shiftLeft_eq _ _
  have hq : x * d / (d * 2 ^ (k + 1)) = x / 2 ^ (k + 1) := by
    rw [Nat.mul_comm x d]
    exact Nat.mul_div_mul_left _ _ hd
  have hr : x * d % (d * 2 ^ (k + 1)) = d * (x % 2 ^ (k + 1)) := by
    rw [Nat.mul_comm x d]
    exact Nat.mul_mod_mul_left _ _ _
  have hp : 2 ^ (k + 1) = 2 * 2 ^ k := by rw [Nat.pow_succ]; ring
  simp only [f32_round_rat_at, f32_round_at, hD, hq, hr, Nat.shiftRight_eq_div_pow,
    Nat.add_sub_cancel]
  have c1 : d * 2 ^ (k + 1) < 2 * (d * (x % 2 ^ (k + 1))) ↔ 2 ^ k < x % 2 ^ (k + 1) := by
    rw [hp]
    constructor
    · intro h
      have : d * (2 * 2 ^ k) < d * (2 * (x % (2 * 2 ^ k))) := by
        calc d * (2 * 2 ^ k) < 2 * (d * (x % (2 * 2 ^ k))) := h
          _ = d * (2 * (x % (2 * 2 ^ k))) := by ring
      have := Nat.lt_of_mul_lt_mul_left this
      omega
    · intro h
      have : d * (2 * 2 ^ k) < d * (2 * (x % (2 * 2 ^ k))) :=
        Nat.mul_lt_mul_of_pos_left (by omega) hd
      calc d * (2 * 2 ^ k) < d * (2 * (x % (2 * 2 ^ k))) := this
        _ = 2 * (d * (x % (2 * 2 ^ k))) := by ring
  have c2 : 2 * (d * (x % 2 ^ (k + 1))) = d * 2 ^ (k + 1) ↔ x % 2 ^ (k + 1) = 2 ^ k := by
    rw [hp]
    constructor
    · intro h
      have : d * (2 * (x % (2 * 2 ^ k))) = d * (2 * 2 ^ k) := by
        calc d * (2 * (x % (2 * 2 ^ k))) = 2 * (d * (x % (2 * 2 ^ k))) := by ring
          _ = d * (2 * 2 ^ k) := h
      have := Nat.eq_of_mul_eq_mul_left hd this
      omega
    · intro h
      rw [h]; ring
  simp only [c1, c2]

theorem f32_round_rat_search_mul (x d n : Nat) (hd : 0 < d) :
    f32_round_rat_search (x * d) d n = f32_round_search x n := by
  induction n with
  | zero =>
    have hq : x * d / d = x := Nat.mul_div_cancel _ hd
    have hr : x * d % d = 0 := Nat.mul_mod_left _ _
    simp only [f32_round_rat_search, f32_round_search, f32_round_rat_at, Nat.shiftLeft_zero,
      hq, hr, Nat.mul_zero, Nat.zero_add]
    rw [if_neg (by omega), Nat.zero_shiftLeft, Nat.zero_add]
  | succ k ih =>
    have hc : d <<< (24 + k) ≤ x * d ↔ x >>> (24 + k) ≠ 0 := by
      rw [Nat.shiftLeft_eq, Nat.shiftRight_eq_div_pow, Nat.mul_comm x d]
      have hp : 0 < 2 ^ (24 + k) := Nat.two_pow_pos _
      constructor
      · intro h
        have : 2 ^ (24 + k) ≤ x := Nat.le_of_mul_le_mul_left h hd
        exact Nat.pos_iff_ne_zero.mp (Nat.div_pos this hp)
      · intro h
        have : 2 ^ (24 + k) ≤ x := by
          by_contra hc
          exact h (Nat.div_eq_of_lt (by omega))
        exact Nat.mul_le_mul_left d this
    simp only [f32_round_rat_search, f32_round_search, hc, ih,
      f32_round_rat_at_mul x d (k + 1) hd (by omega)]

theorem f32_round_rat_mul (x d : Nat) (hd : 0 < d) :
    f32_round_rat (x * d) d = f32_round x := by
  simp only [f32_round_rat, f32_round, f32_round_rat_search_mul x d 254 hd]


/-- Multiplying a finite `float` by `1.0f` returns it unchanged, sign of zero included. -/
theorem f32_mul_one (p s : Nat) (hp : p < 2139095040) (hs : s < 2) :
    f32_mul (p + s * 2147483648) 0x3f800000 = p + s * 2147483648 := by
  have n1 : f32_isNaN (p + s * 2147483648) = false := by
    rw [f32_isNaN_add p s (by omega), decide_eq_false_iff_not]; omega
  have n2 : f32_isNaN 0x3f800000 = false := by decide
  have i1 : f32_isInf (p + s * 2147483648) = false := by
    rw [f32_isInf_add p s (by omega), decide_eq_false_iff_not]; omega
  have i2 : f32_isInf 0x3f800000 = false := by decide
  have hsign : ((p + s * 2147483648) ^^^ 0x3f800000) &&& 0x80000000 = s * 2 ^ 31 := by
    have h0 : (0x3f800000 : Nat) &&& 0x80000000 = 0 := by decide
    rw [Nat.and_xor_distrib_right, h0, Nat.xor_zero, and_80000000]
    omega
  have hone : f32_mag 0x3f800000 = 2 ^ 149 := by
    rw [f32_mag_eq]; norm_num
  simp only [f32_mul, n1, n2, i1, i2, hsign, hone, f32_mag_sign, Bool.false_eq_true,
    or_self, if_false]
  rw [f32_round_rat_mul _ _ (Nat.two_pow_pos 149), f32_round_mag p hp, Nat.or_comm,
    or_high p s 31 (by omega)]
  norm_num

/-- Adding `+0.0f` to a finite `float` returns it unchanged, except that `-0.0f`
becomes `+0.0f`. -/
theorem f32_add_zero (p s : Nat) (hp : p < 2139095040) (hs : s < 2) :
    f32_add (p + s * 2147483648) 0 = if p = 0 then 0 else p + s * 2147483648 := by
  have n1 : f32_isNaN (p + s * 2147483648) = false := by
    rw [f32_isNaN_add p s (by omega), decide_eq_false_iff_not]; omega
  have n2 : f32_isNaN 0 = false := by decide
  have i1 : f32_isInf (p + s * 2147483648) = false := by
    rw [f32_isInf_add p s (by omega), decide_eq_false_iff_not]; omega
  have i2 : f32_isInf 0 = false := by decide
  have s2 : f32_signbit 0 = false := by decide
  have hv0 : f32_val 0 = 0 := by
    rw [f32_val_lt 0 (by norm_num), f32_mag_zero]; rfl
  have hv := f32_val_add p s (by omega) hs
  have hz : f32_mag p = 0 ↔ p = 0 :=
    ⟨f32_mag_eq_zero p (by omega), fun h => by rw [h, f32_mag_zero]⟩
  have hr := f32_round_mag p hp
  simp only [f32_add, n1, n2, i1, i2, s2, hv0, hv, Bool.false_eq_true, or_self, and_false,
    if_false, add_zero]
  by_cases c0 : p = 0
  · have hm : f32_mag p = 0 := hz.mpr c0
    rw [if_pos c0, hm]
    simp
  · have hm : 0 < f32_mag p := Nat.pos_of_ne_zero (fun h => c0 (hz.mp h))
    rw [if_neg c0]
    by_cases c : s = 1
    · simp only [c, if_true]
      have h1 : ¬ (-(f32_mag p : Int) = 0) := by omega
      have h2 : -(f32_mag p : Int) < 0 := by omega
      rw [if_neg h1, if_pos h2, Int.natAbs_neg, Int.natAbs_ofNat, hr]
      omega
    · simp only [c, if_false]
      have h1 : ¬ ((f32_mag p : Int) = 0) := by omega
      have h2 : ¬ ((f32_mag p : Int) < 0) := by omega
      rw [if_neg h1, if_neg h2, Int.natAbs_ofNat, hr]
      omega

/-- Converting a non-NaN half to `float` and back returns the same pattern. -/
theorem round_trip_add (x s : Nat) (hx : x ≤ 31744) (hs : s < 2) :
    float_to_half_rtne (half_to_float (x + s * 32768)) = x + s * 32768 := by
  obtain ⟨hf, hlt⟩ := half_to_float_add x s (by omega) hs
  rw [hf, float_to_half_rtne_add _ _ hlt hs, rtne_mag_half_to_float x hx]

/-- The magnitude pattern of a finite half is a finite `float` pattern. -/
theorem half_to_float_finite (x : Nat) (hx : x < 31744) : half_to_float x < 2139095040 := by
  have h := half_to_float_strict x 31744 (by norm_num) hx
  have e : half_to_float 31744 = 2139095040 := by decide
  omega

/-! ## Small integers -/

/-- Every integer `1 ≤ k ≤ 2048` is the value of a finite binary16 pattern with a
clear sign bit. -/
theorem half_of_small_nat (k : Nat) (h1 : 1 ≤ k) (h2 : k ≤ 2048) :
    ∃ x, x < 31744 ∧ half_mag x = k * 2 ^ 24 := by
  rcases Nat.eq_or_lt_of_le h2 with c | c
  · subst c
    refine ⟨26 * 1024 + 0, by norm_num, ?_⟩
    rw [half_mag_mk 26 0 (by norm_num) (by norm_num) (by norm_num)]
    norm_num
  · have hj1 : 2 ^ Nat.log 2 k ≤ k := Nat.pow_log_le_self 2 (by omega)
    have hj2 : k < 2 ^ (Nat.log 2 k + 1) := Nat.lt_pow_succ_log_self (by norm_num) k
    have hj3 : Nat.log 2 k < 11 := by
      apply Nat.log_lt_of_lt_pow (by omega)
      norm_num; exact c
    generalize Nat.log 2 k = j at hj1 hj2 hj3
    have hq1 : 1024 ≤ k * 2 ^ (10 - j) := by
      calc 1024 = 2 ^ j * 2 ^ (10 - j) := by
            rw [← Nat.pow_add]; have : j + (10 - j) = 10 := by omega
            rw [this]
        _ ≤ k * 2 ^ (10 - j) := Nat.mul_le_mul_right _ hj1
    have hq2 : k * 2 ^ (10 - j) < 2048 := by
      calc k * 2 ^ (10 - j) < 2 ^ (j + 1) * 2 ^ (10 - j) :=
            Nat.mul_lt_mul_of_pos_right hj2 (Nat.two_pow_pos _)
        _ = 2048 := by
            rw [← Nat.pow_add]; have : j + 1 + (10 - j) = 11 := by omega
            rw [this]
    refine ⟨(j + 15) * 1024 + (k * 2 ^ (10 - j) - 1024), by omega, ?_⟩
    rw [half_mag_mk (j + 15) _ (by omega) (by omega) (by omega)]
    have e1 : 1024 + (k * 2 ^ (10 - j) - 1024) = k * 2 ^ (10 - j) := by omega
    have e2 : j + 15 - 1 = j + 14 := by omega
    have e3 : 10 - j + (j + 14) = 24 := by omega
    rw [e1, e2, Nat.mul_assoc, ← Nat.pow_add, e3]

/-- The `float` pattern with a clear sign bit whose magnitude is that of the finite
binary16 pattern `x` is `half_to_float x`, and converting it gives `x`. -/
theorem rtne_mag_of_half_mag (u x : Nat) (hu : u < 2147483648) (hx : x < 31744)
    (hm : f32_mag u = half_mag x * 2 ^ 125) :
    u = half_to_float x ∧ rtne_mag u = x := by
  have h1 := f32_mag_half_to_float x (by omega) (by omega)
  have h2 := (half_to_float_add x 0 (by omega) (by omega)).2
  have e : u = half_to_float x := f32_mag_inj u _ hu h2 (by rw [hm, h1])
  exact ⟨e, by rw [e, rtne_mag_half_to_float x (by omega)]⟩

theorem f32_to_int_add (p s k : Nat) (hp : p < 2139095040) (hs : s < 2)
    (hm : f32_mag p = k * 2 ^ 149) (hk : k ≤ 2147483647) :
    f32_to_int (p + s * 2147483648) = some (if s = 1 then -(k : Int) else (k : Int)) := by
  have n1 : f32_isNaN (p + s * 2147483648) = false := by
    rw [f32_isNaN_add p s (by omega), decide_eq_false_iff_not]; omega
  have i1 : f32_isInf (p + s * 2147483648) = false := by
    rw [f32_isInf_add p s (by omega), decide_eq_false_iff_not]; omega
  have hq : f32_mag (p + s * 2147483648) / 2 ^ 149 = k := by
    rw [f32_mag_sign, hm]
    exact Nat.mul_div_cancel _ (Nat.two_pow_pos _)
  have hsb := f32_signbit_add p s (by omega) hs
  unfold f32_to_int
  rw [if_neg (by rw [n1, i1]; simp), hq, hsb]
  by_cases c : s = 1
  · have hd : decide (s = 1) = true := by simpa using c
    simp only [hd, if_true]
    rw [if_pos c, if_pos (by omega)]
  · have hd : decide (s = 1) = false := by simpa using c
    simp only [hd, Bool.false_eq_true, if_false]
    rw [if_neg c, if_pos (by omega)]

/-! ## The claims -/

/-- C1. For every 16 bit pattern `h` whose exponent field is not 31, the pattern
returned by `half_to_float h` is a finite binary32 pattern whose sign bit is bit 15
of `h` and whose value is exactly the binary16 value of `h`:
`(-1)^s * m/1024 * 2^-14` for exponent field `0` and
`(-1)^s * (1 + m/1024) * 2^(e-15)` for exponent field `0 < e < 31`; in particular
`0x8000` is converted to the pattern `0x80000000` of `-0.0`. -/
theorem C1_half_to_float_exact (h : Nat) (hh : h < 65536)
    (he : (h >>> 10) &&& 0x1f ≠ 31) :
    (half_to_float h >>> 23) &&& 0xff ≠ 255 ∧
    half_to_float h >>> 31 = (h >>> 15) &&& 1 ∧
    ((h >>> 10) &&& 0x1f = 0 →
      f32_toRat (half_to_float h)
        = (-1 : ℚ) ^ ((h >>> 15) &&& 1) * (((h &&& 0x3ff : ℕ) : ℚ) / (1024 : ℚ))
            * (2 : ℚ) ^ (-14 : ℤ)) ∧
    (0 < (h >>> 10) &&& 0x1f →
      f32_toRat (half_to_float h)
        = (-1 : ℚ) ^ ((h >>> 15) &&& 1) * ((1 : ℚ) + ((h &&& 0x3ff : ℕ) : ℚ) / (1024 : ℚ))
            * (2 : ℚ) ^ ((((h >>> 10) &&& 0x1f : ℕ) : ℤ) - 15)) ∧
    f32_toRat (half_to_float h) = half_toRat h ∧
    half_to_float 0x8000 = 0x80000000 := by
  have he2 : h / 1024 % 32 ≠ 31 := by
    simpa only [and_1f, Nat.shiftRight_eq_div_pow, Nat.reducePow] using he
  have hv := f32_toRat_half_to_float h hh he2
  have hsg : (if (h >>> 15) &&& 1 = 1 then (-1 : ℚ) else 1) = (-1 : ℚ) ^ ((h >>> 15) &&& 1) := by
    have : (h >>> 15) &&& 1 = 0 ∨ (h >>> 15) &&& 1 = 1 := by
      simp only [and_1]; omega
    rcases this with e | e <;> rw [e] <;> norm_num
  refine ⟨?_, ?_, ?_, ?_, hv, by decide⟩
  · obtain ⟨p, hp, hlt, h1, h2, h3⟩ := half_to_float_shape h hh
    rw [hp]
    simp only [and_ff, Nat.shiftRight_eq_div_pow, Nat.reducePow]
    by_cases c2 : h % 32768 < 1024
    · have := (h2 c2).1
      omega
    · have := h3 (by omega) (by omega)
      omega
  · obtain ⟨p, hp, hlt, -, -, -⟩ := half_to_float_shape h hh
    rw [hp]
    simp only [and_1, Nat.shiftRight_eq_div_pow, Nat.reducePow]
    omega
  · intro e0
    rw [hv, half_toRat]
    simp only [e0, if_true, hsg]
  · intro e0
    rw [hv, half_toRat]
    have : ¬ ((h >>> 10) &&& 0x1f = 0) := by omega
    simp only [this, if_false, hsg]

theorem C1_half_to_float_exact_witness :
    (0xc001 : Nat) < 65536 ∧ ((0xc001 : Nat) >>> 10) &&& 0x1f ≠ 31 ∧
    f32_toRat (half_to_float 0xc001) = half_toRat 0xc001 :=
  ⟨by decide, by decide,
    (C1_half_to_float_exact 0xc001 (by decide) (by decide)).2.2.2.2.1⟩


/-- C2. Round trip: for every finite binary16 pattern `h` (exponent field not 31,
either sign, zeros and subnormals included), converting to `float` and back returns
exactly `h`. -/
theorem C2_round_trip (h : Nat) (hh : h < 65536) (he : (h >>> 10) &&& 0x1f ≠ 31) :
    float_to_half_rtne (half_to_float h) = h := by
  have he2 : h / 1024 % 32 ≠ 31 := by
    simpa only [and_1f, Nat.shiftRight_eq_div_pow, Nat.reducePow] using he
  obtain ⟨p, hp, hlt, -, h2, h3⟩ := half_to_float_shape h hh
  have hr : half_to_float h < 4294967296 := half_to_float_lt h hh
  rw [float_to_half_rtne_eq _ hr, hp]
  have e1 : (p + h / 32768 * 2147483648) % 2147483648 = p := by omega
  have e2 : (p + h / 32768 * 2147483648) / 2147483648 = h / 32768 := by omega
  rw [e1, e2]
  by_cases c2 : h % 32768 < 1024
  · obtain ⟨hlt2, hm⟩ := h2 c2
    rw [rtne_mag, if_neg (by omega), if_pos hlt2, hm, rne125_exact]
    omega
  · have hpe := h3 (by omega) (by omega)
    rw [rtne_mag, if_neg (by omega), if_neg (by omega), hpe]
    omega

theorem C2_round_trip_witness :
    (0x83ff : Nat) < 65536 ∧ ((0x83ff : Nat) >>> 10) &&& 0x1f ≠ 31 ∧
    float_to_half_rtne (half_to_float 0x83ff) = 0x83ff :=
  ⟨by decide, by decide, C2_round_trip 0x83ff (by decide) (by decide)⟩


/-- C3. Round to nearest even in the normal range: for every binary32 pattern `f` with
`2^-14 ≤ |f| < 65520` the result is a finite binary16 pattern with the sign of `f`
whose value is at least as close to `f` as every finite binary16 value; when another
binary16 value is equally close (`f` lies halfway between two adjacent binary16
values) the result has bit 0 clear; the result is the truncated pattern
`((E - 112) << 10) | M` (`E` the exponent field and `M` the top ten mantissa bits of
`f`) or that pattern plus one, so that a carry out of `M = 0x3ff` increments the
exponent field and clears the mantissa.  In particular `1 + 2^-11` gives `0x3c00`,
`1 + 3 * 2^-11` gives `0x3c02`, and the largest float below `2` gives `0x4000`. -/
theorem C3_round_to_nearest_even (f : Nat) (hf : f < 4294967296)
    (hlo : (2 : ℚ) ^ (-14 : ℤ) ≤ |f32_toRat f|) (hhi : |f32_toRat f| < 65520) :
    (float_to_half_rtne f < 65536 ∧
     (float_to_half_rtne f >>> 10) &&& 0x1f ≠ 31 ∧
     float_to_half_rtne f >>> 15 = f >>> 31 ∧
     (∀ g, g < 65536 → (g >>> 10) &&& 0x1f ≠ 31 →
        |half_toRat (float_to_half_rtne f) - f32_toRat f|
          ≤ |half_toRat g - f32_toRat f|) ∧
     (∀ g, g < 65536 → (g >>> 10) &&& 0x1f ≠ 31 →
        half_toRat g ≠ half_toRat (float_to_half_rtne f) →
        |half_toRat g - f32_toRat f| = |half_toRat (float_to_half_rtne f) - f32_toRat f| →
        float_to_half_rtne f &&& 1 = 0) ∧
     (float_to_half_rtne f &&& 0x7fff
          = (((f >>> 23) &&& 0xff) - 112) * 1024 + ((f >>> 13) &&& 0x3ff) ∨
      float_to_half_rtne f &&& 0x7fff
          = (((f >>> 23) &&& 0xff) - 112) * 1024 + ((f >>> 13) &&& 0x3ff) + 1) ∧
     ((f >>> 13) &&& 0x3ff = 0x3ff →
      float_to_half_rtne f &&& 0x7fff
          = (((f >>> 23) &&& 0xff) - 112) * 1024 + ((f >>> 13) &&& 0x3ff) + 1 →
      ((float_to_half_rtne f >>> 10) &&& 0x1f = ((f >>> 23) &&& 0xff) - 112 + 1 ∧
       float_to_half_rtne f &&& 0x3ff = 0))) ∧
    float_to_half_rtne 0x3f801000 = 0x3c00 ∧
    float_to_half_rtne 0x3f803000 = 0x3c02 ∧
    float_to_half_rtne 0x3fffffff = 0x4000 := by
  refine ⟨?_, by decide, by decide, by decide⟩
  obtain ⟨fu, s, rfl, hfu, hs, e1, e2⟩ := f32_split f hf
  have hge : 947912704 ≤ fu := by
    by_contra hc
    have := (abs_f32_toRat_lt_min fu s hfu).mpr (by omega)
    exact absurd hlo (not_le.mpr this)
  have hlt : fu < 1199566848 := by
    by_contra hc
    have := (le_abs_f32_toRat_65520 fu s hfu).mpr (by omega)
    exact absurd hhi (not_lt.mpr this)
  obtain ⟨T, u, A, d, -, -, -, hT1, hT2, hT, -, -, -, hn, hnlt⟩ :=
    rtne_mag_bracket fu hge hlt
  have hr : float_to_half_rtne (fu + s * 2147483648) = rtne_mag fu + s * 32768 := by
    rw [float_to_half_rtne_eq _ hf, e1, e2]
  have hnear := rtne_mag_nearest fu hge hlt
  rw [hr]
  generalize rtne_mag fu = n at hn hnlt hnear
  have hv : f32_toRat (fu + s * 2147483648)
      = (if s = 1 then -1 else 1) * ((f32_mag fu : ℚ) / 2 ^ 149) := f32_toRat_add2 fu s hfu hs
  have hvn : half_toRat (n + s * 32768)
      = (if s = 1 then -1 else 1) * ((half_mag n : ℚ) / 2 ^ 24) :=
    half_toRat_add n s (by omega) hs
  have hgsplit : ∀ g, g < 65536 → (g >>> 10) &&& 0x1f ≠ 31 →
      g % 32768 < 31744 ∧ g / 32768 < 2 ∧
      half_toRat g = (if g / 32768 = 1 then -1 else 1) * ((half_mag (g % 32768) : ℚ) / 2 ^ 24) := by
    intro g hg hge'
    have he2 : g / 1024 % 32 ≠ 31 := by
      simpa only [and_1f, Nat.shiftRight_eq_div_pow, Nat.reducePow] using hge'
    have h3 := half_toRat_add (g % 32768) (g / 32768) (by omega) (by omega)
    have h4 : g % 32768 + g / 32768 * 32768 = g := by omega
    rw [h4] at h3
    exact ⟨by omega, by omega, h3⟩
  refine ⟨by omega, ?_, ?_, ?_, ?_, ?_, ?_⟩
  · simp only [and_1f, Nat.shiftRight_eq_div_pow, Nat.reducePow]
    omega
  · simp only [Nat.shiftRight_eq_div_pow, Nat.reducePow]
    omega
  · intro g hg hge'
    obtain ⟨hgm, hgs, hvg⟩ := hgsplit g hg hge'
    obtain ⟨k1, k2, -⟩ := hnear (g % 32768) hgm
    rw [hv, hvn, hvg]
    obtain ⟨d1, d2⟩ := signed_dist (if s = 1 then -1 else 1) (if g / 32768 = 1 then -1 else 1)
      ((half_mag n : ℚ) / 2 ^ 24) ((half_mag (g % 32768) : ℚ) / 2 ^ 24)
      ((f32_mag fu : ℚ) / 2 ^ 149) (sign_cases s) (sign_cases (g / 32768))
    rw [d1]
    rcases d2 with ⟨-, d2⟩ | ⟨-, d2⟩
    · rw [d2]; exact k1
    · rw [d2]; exact le_of_lt k2
  · intro g hg hge' hne htie
    obtain ⟨hgm, hgs, hvg⟩ := hgsplit g hg hge'
    obtain ⟨-, k2, k3⟩ := hnear (g % 32768) hgm
    rw [hv, hvn, hvg] at htie
    rw [hvn, hvg] at hne
    obtain ⟨d1, d2⟩ := signed_dist (if s = 1 then -1 else 1) (if g / 32768 = 1 then -1 else 1)
      ((half_mag n : ℚ) / 2 ^ 24) ((half_mag (g % 32768) : ℚ) / 2 ^ 24)
      ((f32_mag fu : ℚ) / 2 ^ 149) (sign_cases s) (sign_cases (g / 32768))
    rw [d1] at htie
    have hn2 : n % 2 = 0 := by
      rcases d2 with ⟨ds, d2⟩ | ⟨-, d2⟩
      · rw [d2] at htie
        apply k3 htie
        intro hc
        apply hne
        rw [ds, hc]
      · rw [d2] at htie
        exact absurd htie (ne_of_gt k2)
    simp only [and_1]
    omega
  · simp only [and_7fff, and_ff, and_3ff, Nat.shiftRight_eq_div_pow, Nat.reducePow]
    have e3 : (fu + s * 2147483648) / 8388608 % 256 = fu / 8388608 := by omega
    have e4 : (fu + s * 2147483648) / 8192 % 1024 = fu / 8192 % 1024 := by omega
    rw [e3, e4, ← hT]
    omega
  · simp only [and_7fff, and_ff, and_3ff, and_1f, Nat.shiftRight_eq_div_pow, Nat.reducePow]
    have e3 : (fu + s * 2147483648) / 8388608 % 256 = fu / 8388608 := by omega
    have e4 : (fu + s * 2147483648) / 8192 % 1024 = fu / 8192 % 1024 := by omega
    rw [e3, e4]
    intro hM hc
    rw [← hT] at hc
    have hT' : T = (fu / 8388608 - 112) * 1024 + 1023 := by omega
    omega

theorem C3_round_to_nearest_even_witness :
    (0x3f801000 : Nat) < 4294967296 ∧
    (2 : ℚ) ^ (-14 : ℤ) ≤ |f32_toRat 0x3f801000| ∧ |f32_toRat 0x3f801000| < 65520 ∧
    (∀ g, g < 65536 → (g >>> 10) &&& 0x1f ≠ 31 →
        |half_toRat (float_to_half_rtne 0x3f801000) - f32_toRat 0x3f801000|
          ≤ |half_toRat g - f32_toRat 0x3f801000|) :=
  have h1 : (2 : ℚ) ^ (-14 : ℤ) ≤ |f32_toRat 0x3f801000| := by
    rw [← not_lt, abs_f32_toRat_lt_min 1065357312 0 (by decide)]; decide
  have h2 : |f32_toRat 0x3f801000| < 65520 := by
    rw [← not_le, le_abs_f32_toRat_65520 1065357312 0 (by decide)]; decide
  ⟨by decide, h1, h2, (C3_round_to_nearest_even 0x3f801000 (by decide) h1 h2).1.2.2.2.1⟩

/-- C4. Subnormal rounding: for every binary32 pattern `f` of magnitude below `2^-14`
(float zeros and float subnormals included) the result is the sign bit of `f` (moved
to bit 15) or-ed with `k`, where `0 ≤ k ≤ 1024` is `|f| * 2^24` rounded to the nearest
integer, ties to the even integer; magnitudes from `1023.5 * 2^-24` on give `k = 1024`,
the smallest normal `0x0400`.  In particular `2^-25` gives `0x0000`, `2^-24` gives
`0x0001` and the largest float below `2^-14` gives `0x0400`. -/
theorem C4_subnormal_rounding (f : Nat) (hf : f < 4294967296)
    (hsmall : |f32_toRat f| < (2 : ℚ) ^ (-14 : ℤ)) :
    (∃ k : ℕ, float_to_half_rtne f = ((f &&& 0x80000000) >>> 16) ||| k ∧ k ≤ 1024 ∧
      |(k : ℚ) - |f32_toRat f| * 2 ^ 24| ≤ 1 / 2 ∧
      (|(k : ℚ) - |f32_toRat f| * 2 ^ 24| = 1 / 2 → k % 2 = 0) ∧
      ((1023 : ℚ) + 1 / 2 ≤ |f32_toRat f| * 2 ^ 24 → k = 0x0400)) ∧
    float_to_half_rtne 0x33000000 = 0x0000 ∧
    float_to_half_rtne 0x33800000 = 0x0001 ∧
    float_to_half_rtne 0x387fffff = 0x0400 := by
  refine ⟨?_, by decide, by decide, by decide⟩
  obtain ⟨fu, s, rfl, hfu, hs, e1, e2⟩ := f32_split f hf
  have hlt : fu < 947912704 := (abs_f32_toRat_lt_min fu s hfu).mp hsmall
  obtain ⟨-, hk⟩ := f32_add_denorm_magic fu hlt
  have hsh : ((fu + s * 2147483648) &&& 0x80000000) >>> 16 = s * 2 ^ 15 := by
    rw [and_80000000]
    simp only [Nat.shiftRight_eq_div_pow, Nat.reducePow]
    omega
  have hy : |f32_toRat (fu + s * 2147483648)| * 2 ^ 24 = (f32_mag fu : ℚ) / 2 ^ 125 := by
    rw [abs_f32_toRat, f32_mag_sign]
    have : (2 : ℚ) ^ 149 = 2 ^ 125 * 2 ^ 24 := by norm_num
    rw [this]
    field_simp
    ring
  obtain ⟨hn, he⟩ := rne125_spec (f32_mag fu)
  refine ⟨rne125 (f32_mag fu), ?_, hk, ?_, ?_, ?_⟩
  · rw [float_to_half_rtne_eq _ hf, e1, e2, hsh, Nat.or_comm, or_high _ _ 15 (by omega),
      rtne_mag, if_neg (by omega), if_pos hlt]
    norm_num
  · rw [hy]; exact hn
  · rw [hy]; exact he
  · rw [hy]
    intro hge
    have h1 := abs_le.mp hn
    by_contra hne
    have hk2 : rne125 (f32_mag fu) ≤ 1023 := by omega
    have hk3 : (rne125 (f32_mag fu) : ℚ) ≤ 1023 := by exact_mod_cast hk2
    have hk4 : (rne125 (f32_mag fu) : ℚ) = 1023 := by linarith [h1.1]
    have hk5 : rne125 (f32_mag fu) = 1023 := by exact_mod_cast hk4
    have habs : |(rne125 (f32_mag fu) : ℚ) - (f32_mag fu : ℚ) / 2 ^ 125| = 1 / 2 := by
      rw [hk4] at h1 ⊢
      rw [abs_sub_comm, abs_of_nonneg (by linarith)]
      linarith [h1.1]
    have := he habs
    omega

theorem C4_subnormal_rounding_witness :
    (0xb3000001 : Nat) < 4294967296 ∧ |f32_toRat 0xb3000001| < (2 : ℚ) ^ (-14 : ℤ) ∧
    (∃ k : ℕ, float_to_half_rtne 0xb3000001 = ((0xb3000001 &&& 0x80000000) >>> 16) ||| k ∧
      k ≤ 1024 ∧
      |(k : ℚ) - |f32_toRat 0xb3000001| * 2 ^ 24| ≤ 1 / 2 ∧
      (|(k : ℚ) - |f32_toRat 0xb3000001| * 2 ^ 24| = 1 / 2 → k % 2 = 0) ∧
      ((1023 : ℚ) + 1 / 2 ≤ |f32_toRat 0xb3000001| * 2 ^ 24 → k = 0x0400)) :=
  ⟨by decide, by rw [abs_f32_toRat_lt_min 855638017 1 (by decide)]; decide,
    (C4_subnormal_rounding 0xb3000001 (by decide)
      (by rw [abs_f32_toRat_lt_min 855638017 1 (by decide)]; decide)).1⟩

/-- C5. Saturation and class of the result: for every binary32 pattern `f`, the
converted half is an infinity exactly when `f` is not a NaN and is infinite or has
magnitude at least `65520`, and then it is `0x7c00` for a clear and `0xfc00` for a
set sign bit (so `1e10` gives `0x7c00` and `-1e10` gives `0xfc00`); the converted
half is a NaN exactly when `f` is a NaN. -/
theorem C5_saturation_and_class (f : Nat) (hf : f < 4294967296) :
    (isinf (float_to_half_rtne f) = true ↔
      (f32_isNaN f = false ∧ (f32_isInf f = true ∨ (65520 : ℚ) ≤ |f32_toRat f|))) ∧
    (isinf (float_to_half_rtne f) = true →
      float_to_half_rtne f = if f32_signbit f then 0xfc00 else 0x7c00) ∧
    (isnan (float_to_half_rtne f) = true ↔ f32_isNaN f = true) ∧
    float_to_half_rtne 0x501502f9 = 0x7c00 ∧
    float_to_half_rtne 0xd01502f9 = 0xfc00 := by
  refine ⟨?_, ?_, ?_, by decide, by decide⟩
  all_goals
    obtain ⟨fu, s, rfl, hfu, hs, e1, e2⟩ := f32_split f hf
    have h1 := rtne_mag_le fu hfu
    have h2 := rtne_mag_inf_iff fu hfu
    have h3 := rtne_mag_nan_iff fu hfu
    rw [float_to_half_rtne_eq _ hf, e1, e2]
  · rw [le_abs_f32_toRat_65520 fu s hfu, f32_isNaN_add fu s hfu, f32_isInf_add fu s hfu]
    simp only [isinf, and_7fff, decide_eq_true_eq, decide_eq_false_iff_not]
    omega
  · rw [f32_signbit_add fu s hfu hs]
    simp only [isinf, and_7fff, decide_eq_true_eq]
    intro hi
    split <;> omega
  · rw [f32_isNaN_add fu s hfu]
    simp only [isnan, and_7fff, decide_eq_true_eq]
    omega

theorem C5_saturation_and_class_witness :
    (0x477ff000 : Nat) < 4294967296 ∧
    (isinf (float_to_half_rtne 0x477ff000) = true ↔
      (f32_isNaN 0x477ff000 = false ∧
        (f32_isInf 0x477ff000 = true ∨ (65520 : ℚ) ≤ |f32_toRat 0x477ff000|))) :=
  ⟨by decide, (C5_saturation_and_class 0x477ff000 (by decide)).1⟩

/-- C6 as stated fails: a NaN with its sign bit set is converted to `0xfe00`. -/
theorem C6_counterexample :
    ¬ (∀ f : Nat, f < 4294967296 → f32_isNaN f = true → float_to_half_rtne f = 0x7e00) := by
  intro h
  have h1 := h 0xffc00000 (by decide) (by decide)
  revert h1
  decide

/-- C6 (amended). Canonical NaN up to the sign: for every NaN binary32 pattern `f`,
whatever its payload, the result has the magnitude bits `0x7e00` and the sign bit of
`f`, so it is `0x7e00` when the sign bit of `f` is clear and `0xfe00` when it is
set. -/
theorem C6_canonical_nan_keeps_sign (f : Nat) (hf : f < 4294967296)
    (hn : f32_isNaN f = true) :
    float_to_half_rtne f &&& 0x7fff = 0x7e00 ∧
    float_to_half_rtne f = 0x7e00 ||| ((f &&& 0x80000000) >>> 16) ∧
    float_to_half_rtne f = if f32_signbit f then 0xfe00 else 0x7e00 := by
  obtain ⟨fu, s, rfl, hfu, hs, e1, e2⟩ := f32_split f hf
  rw [f32_isNaN_add fu s hfu, decide_eq_true_eq] at hn
  have hm : rtne_mag fu = 0x7e00 := by
    unfold rtne_mag
    rw [if_pos (by omega), if_pos hn]
  have hsh : ((fu + s * 2147483648) &&& 0x80000000) >>> 16 = s * 32768 := by
    rw [and_80000000]
    simp only [Nat.shiftRight_eq_div_pow, Nat.reducePow]
    omega
  have hor : 0x7e00 ||| s * 32768 = 0x7e00 + s * 32768 := or_high 0x7e00 s 15 (by norm_num)
  rw [float_to_half_rtne_eq _ hf, e1, e2, hm, f32_signbit_add fu s hfu hs, hsh, hor, and_7fff]
  clear hsh
  refine ⟨by omega, rfl, ?_⟩
  simp only [decide_eq_true_eq]
  split <;> omega

theorem C6_canonical_nan_keeps_sign_witness :
    (0xffc00001 : Nat) < 4294967296 ∧ f32_isNaN 0xffc00001 = true ∧
    (float_to_half_rtne 0xffc00001 &&& 0x7fff = 0x7e00 ∧
    float_to_half_rtne 0xffc00001 = 0x7e00 ||| ((0xffc00001 &&& 0x80000000) >>> 16) ∧
    float_to_half_rtne 0xffc00001 = if f32_signbit 0xffc00001 then 0xfe00 else 0x7e00) :=
  ⟨by decide, by decide, C6_canonical_nan_keeps_sign 0xffc00001 (by decide) (by decide)⟩


/-- C7. Classifier partition: for every pattern `h`, `isinf h` is
`(h & 0x7fff) == 0x7c00`, `isnan h` is `(h & 0x7fff) > 0x7c00`, `isfinite h` is the
conjunction of their negations, and exactly one of the three predicates is true. -/
theorem C7_classifier_partition (h : Nat) :
    isinf h = decide (h &&& 0x7fff = 0x7c00) ∧
    isnan h = decide (0x7c00 < h &&& 0x7fff) ∧
    isfinite h = (!isinf h && !isnan h) ∧
    ((isnan h = true ∧ isinf h = false ∧ isfinite h = false) ∨
     (isnan h = false ∧ isinf h = true ∧ isfinite h = false) ∨
     (isnan h = false ∧ isinf h = false ∧ isfinite h = true)) := by
  refine ⟨rfl, rfl, rfl, ?_⟩
  simp only [isfinite, isinf, isnan]
  rcases Nat.lt_trichotomy (h &&& 0x7fff) 0x7c00 with c | c | c
  · right; right
    have h1 : ¬ (h &&& 0x7fff = 0x7c00) := by omega
    have h2 : ¬ (0x7c00 < h &&& 0x7fff) := by omega
    simp [h1, h2]
  · right; left
    have h2 : ¬ (0x7c00 < h &&& 0x7fff) := by omega
    simp [c]
  · left
    have h1 : ¬ (h &&& 0x7fff = 0x7c00) := by omega
    simp [h1, c]

/-- C8. The bit-level classifier agrees with the conversion on every 16 bit pattern:
`isnan h` holds exactly when `half_to_float h` has exponent field 255 and a non-zero
mantissa, `isinf h` exactly when it has exponent field 255 and a zero mantissa, the
sign bit of the result is bit 15 of `h`, and `isfinite h` holds exactly when the
exponent field of the result is not 255. -/
theorem C8_classifier_agrees_with_conversion (h : Nat) (hh : h < 65536) :
    (isnan h = true ↔
      ((half_to_float h >>> 23) &&& 0xff = 255 ∧ half_to_float h &&& 0x7fffff ≠ 0)) ∧
    (isinf h = true ↔
      ((half_to_float h >>> 23) &&& 0xff = 255 ∧ half_to_float h &&& 0x7fffff = 0)) ∧
    half_to_float h >>> 31 = h >>> 15 ∧
    (isfinite h = true ↔ (half_to_float h >>> 23) &&& 0xff ≠ 255) ∧
    f32_isNaN (half_to_float h) = isnan h ∧
    f32_isInf (half_to_float h) = isinf h := by
  obtain ⟨p, hp, hlt, h1, h2, h3⟩ := half_to_float_shape h hh
  rw [hp]
  simp only [isfinite, isnan, isinf, f32_isNaN, f32_isInf, and_7fff, and_ff, and_7fffff,
    and_7fffffff, Nat.shiftRight_eq_div_pow, Nat.reducePow, Bool.and_eq_true,
    Bool.not_eq_true', decide_eq_true_eq, decide_eq_false_iff_not, decide_eq_decide]
  have hxlt : h % 32768 < 32768 := Nat.mod_lt _ (by norm_num)
  by_cases c1 : 31744 ≤ h % 32768
  · have := h1 c1
    omega
  · by_cases c2 : h % 32768 < 1024
    · have := (h2 c2).1
      omega
    · have := h3 (by omega) (by omega)
      omega

theorem C8_classifier_agrees_with_conversion_witness :
    (31745 : Nat) < 65536 ∧
    ((isnan 31745 = true ↔
      ((half_to_float 31745 >>> 23) &&& 0xff = 255 ∧ half_to_float 31745 &&& 0x7fffff ≠ 0)) ∧
    (isinf 31745 = true ↔
      ((half_to_float 31745 >>> 23) &&& 0xff = 255 ∧ half_to_float 31745 &&& 0x7fffff = 0)) ∧
    half_to_float 31745 >>> 31 = 31745 >>> 15 ∧
    (isfinite 31745 = true ↔ (half_to_float 31745 >>> 23) &&& 0xff ≠ 255) ∧
    f32_isNaN (half_to_float 31745) = isnan 31745 ∧
    f32_isInf (half_to_float 31745) = isinf 31745) :=
  ⟨by decide, C8_classifier_agrees_with_conversion 31745 (by decide)⟩


/-- C9. NaN comparison semantics: when `a` or `b` is a NaN (any payload and sign, the
two may be the same pattern), the emulated `==`, `<`, `<=`, `>` and `>=` return false
and `!=` returns true. -/
theorem C9_nan_comparisons (a b : Nat) (ha : a < 65536) (hb : b < 65536)
    (hn : isnan a = true ∨ isnan b = true) :
    op_eq a b = false ∧ op_lt a b = false ∧ op_le a b = false ∧
    op_gt a b = false ∧ op_ge a b = false ∧ op_ne a b = true := by
  have h1 := f32_isNaN_half_to_float a ha
  have h2 := f32_isNaN_half_to_float b hb
  simp only [op_eq, op_lt, op_le, op_gt, op_ge, op_ne, f32_eq, f32_lt, f32_le, f32_gt,
    f32_ge, f32_ne, h1, h2]
  rcases hn with h | h <;> simp [h]

theorem C9_nan_comparisons_witness :
    (0x7e00 : Nat) < 65536 ∧ (0x7e00 : Nat) < 65536 ∧
    (isnan 0x7e00 = true ∨ isnan 0x7e00 = true) ∧
    (op_eq 0x7e00 0x7e00 = false ∧ op_lt 0x7e00 0x7e00 = false ∧
     op_le 0x7e00 0x7e00 = false ∧ op_gt 0x7e00 0x7e00 = false ∧
     op_ge 0x7e00 0x7e00 = false ∧ op_ne 0x7e00 0x7e00 = true) :=
  ⟨by decide, by decide, Or.inl (by decide),
    C9_nan_comparisons 0x7e00 0x7e00 (by decide) (by decide) (Or.inl (by decide))⟩

/-- C10. Equality is value equality: for non-NaN `a`, `b` the emulated `a == b` holds
exactly when the bit patterns are identical or both are zeros
(`(a & 0x7fff) == 0` and `(b & 0x7fff) == 0`); and `a != b` is the negation of
`a == b` for all `a`, `b`. -/
theorem C10_equality_is_value_equality (a b : Nat) (ha : a < 65536) (hb : b < 65536) :
    (isnan a = false → isnan b = false →
      (op_eq a b = true ↔ (a = b ∨ (a &&& 0x7fff = 0 ∧ b &&& 0x7fff = 0)))) ∧
    op_ne a b = !op_eq a b := by
  constructor
  · intro na nb
    have h1 := f32_isNaN_half_to_float a ha
    have h2 := f32_isNaN_half_to_float b hb
    obtain ⟨ea, hpa⟩ := half_to_float_split a ha
    obtain ⟨eb, hpb⟩ := half_to_float_split b hb
    have hxa : a % 32768 < 32768 := Nat.mod_lt _ (by norm_num)
    have hxb : b % 32768 < 32768 := Nat.mod_lt _ (by norm_num)
    have hsa : a / 32768 < 2 := by omega
    have hsb : b / 32768 < 2 := by omega
    simp only [op_eq, f32_eq, h1, h2, na, nb, Bool.not_false, Bool.true_and,
      decide_eq_true_eq, and_7fff]
    rw [ea, eb, f32_val_add _ _ hpa hsa, f32_val_add _ _ hpb hsb]
    have key : ∀ x y, x < 32768 → y < 32768 →
        f32_mag (half_to_float x) = f32_mag (half_to_float y) → x = y := by
      intro x y hx hy hm
      have hx2 := (half_to_float_split x (by omega)).2
      have hy2 := (half_to_float_split y (by omega)).2
      have ex : x % 32768 = x := by omega
      have ey : y % 32768 = y := by omega
      rw [ex] at hx2
      rw [ey] at hy2
      exact half_to_float_inj x y hx hy (f32_mag_inj _ _ hx2 hy2 hm)
    have key0 : ∀ x, x < 32768 → f32_mag (half_to_float x) = 0 → x = 0 := by
      intro x hx hm
      apply key x 0 hx (by norm_num)
      rw [hm, half_to_float_zero, f32_mag_zero]
    constructor
    · intro hv
      by_cases c1 : a / 32768 = 1 <;> by_cases c2 : b / 32768 = 1
      · rw [if_pos c1, if_pos c2] at hv
        have := key _ _ hxa hxb (by omega)
        omega
      · rw [if_pos c1, if_neg c2] at hv
        have := key0 _ hxa (by omega)
        have := key0 _ hxb (by omega)
        omega
      · rw [if_neg c1, if_pos c2] at hv
        have := key0 _ hxa (by omega)
        have := key0 _ hxb (by omega)
        omega
      · rw [if_neg c1, if_neg c2] at hv
        have := key _ _ hxa hxb (by omega)
        omega
    · rintro (h | ⟨h, h'⟩)
      · subst h; rfl
      · rw [h, h', half_to_float_zero, f32_mag_zero]
        split <;> split <;> simp
  · simp only [op_ne, op_eq, f32_ne, f32_eq]
    cases f32_isNaN (half_to_float a) <;> cases f32_isNaN (half_to_float b) <;> simp

theorem C10_equality_is_value_equality_witness :
    (0x8000 : Nat) < 65536 ∧ (0 : Nat) < 65536 ∧
    ((isnan 0x8000 = false → isnan 0 = false →
      (op_eq 0x8000 0 = true ↔ (0x8000 = 0 ∨ (0x8000 &&& 0x7fff = 0 ∧ 0 &&& 0x7fff = 0)))) ∧
    op_ne 0x8000 0 = !op_eq 0x8000 0) :=
  ⟨by decide, by decide, C10_equality_is_value_equality 0x8000 0 (by decide) (by decide)⟩

/-- C11. Arithmetic identities of the emulated operators: for every finite half `a`,
`(a + half(0.0)) == a` and `(a * half(1.0)) == a` under `operator==`, and
`half(1.0) / half(1.0) == half(1.0)`; moreover `a * half(1.0)` has exactly the bit
pattern of `a`. -/
theorem C11_arithmetic_identities (a : Nat) (ha : a < 65536) (hfin : isfinite a = true) :
    op_eq (op_add a (half_of_float 0x00000000)) a = true ∧
    op_eq (op_mul a (half_of_float 0x3f800000)) a = true ∧
    op_eq (op_div (half_of_float 0x3f800000) (half_of_float 0x3f800000))
      (half_of_float 0x3f800000) = true ∧
    op_mul a (half_of_float 0x3f800000) = a := by
  rw [isfinite_iff] at hfin
  obtain ⟨x, s, rfl, hx, hs, e1, -⟩ := half_split a ha
  rw [e1] at hfin
  have na : isnan (x + s * 32768) = false := by
    rw [isnan_add x s hx, decide_eq_false_iff_not]; omega
  have hzero : half_of_float 0x00000000 = 0 := by decide
  have hone : half_of_float 0x3f800000 = 0x3c00 := by decide
  have hzf : half_to_float 0 = 0 := half_to_float_zero
  have hof : half_to_float 0x3c00 = 0x3f800000 := by decide
  obtain ⟨hf, hlt⟩ := half_to_float_add x s hx hs
  have hfinf := half_to_float_finite x hfin
  have hmul : op_mul (x + s * 32768) (half_of_float 0x3f800000) = x + s * 32768 := by
    rw [hone, op_mul, hof, hf, f32_mul_one _ s hfinf hs, half_of_float, ← hf,
      round_trip_add x s (by omega) hs]
  have hself : op_eq (x + s * 32768) (x + s * 32768) = true :=
    (op_iff_key _ _ ha ha na na).2.2.mpr rfl
  refine ⟨?_, ?_, by decide, hmul⟩
  · rw [hzero, op_add, hzf, hf, f32_add_zero _ s hfinf hs, half_of_float]
    by_cases c0 : half_to_float x = 0
    · rw [if_pos c0]
      have hx0 : x = 0 := half_to_float_eq_zero x hx c0
      subst hx0
      have n0 : isnan (float_to_half_rtne 0) = false := by decide
      rw [(op_iff_key _ _ (by decide) ha n0 na).2.2,
        sign_magnitude_key_eq_iff _ _ (by decide) ha]
      right
      exact ⟨by decide, by omega⟩
    · rw [if_neg c0, ← hf, round_trip_add x s (by omega) hs]
      exact hself
  · rw [hmul]; exact hself

theorem C11_arithmetic_identities_witness :
    (0x8000 : Nat) < 65536 ∧ isfinite 0x8000 = true ∧
    (op_eq (op_add 0x8000 (half_of_float 0x00000000)) 0x8000 = true ∧
    op_eq (op_mul 0x8000 (half_of_float 0x3f800000)) 0x8000 = true ∧
    op_eq (op_div (half_of_float 0x3f800000) (half_of_float 0x3f800000))
      (half_of_float 0x3f800000) = true ∧
    op_mul 0x8000 (half_of_float 0x3f800000) = 0x8000) :=
  ⟨by decide, by decide, C11_arithmetic_identities 0x8000 (by decide) (by decide)⟩

/-- C12 on the code: both `epsilon()` functions return the pattern `0x0800`, whose
`float` value is `2^-13`; the gap between `1.0` (`0x3c00`) and the next half
(`0x3c01`) is `2^-10 = 2^(1 - digits)`, the value of the pattern `0x1400`. -/
theorem C12_epsilon_pattern_value :
    numeric_limits.epsilon = 0x0800 ∧ NumTraits.epsilon = 0x0800 ∧
    half_to_float numeric_limits.epsilon = 0x39000000 ∧
    f32_toRat (half_to_float numeric_limits.epsilon) = (2 : ℚ) ^ (-13 : ℤ) ∧
    f32_sub (half_to_float 0x3c01) (half_to_float 0x3c00) = 0x3a800000 ∧
    f32_toRat (f32_sub (half_to_float 0x3c01) (half_to_float 0x3c00)) = (2 : ℚ) ^ (-10 : ℤ) ∧
    (2 : ℚ) ^ (1 - (numeric_limits.digits : ℤ)) = (2 : ℚ) ^ (-10 : ℤ) ∧
    half_to_float 0x1400 = 0x3a800000 ∧
    f32_toRat (half_to_float numeric_limits.epsilon)
      ≠ f32_toRat (f32_sub (half_to_float 0x3c01) (half_to_float 0x3c00)) := by
  have e1 : half_to_float numeric_limits.epsilon = 0x39000000 := by decide
  have e2 : f32_sub (half_to_float 0x3c01) (half_to_float 0x3c00) = 0x3a800000 := by decide
  have v1 : f32_toRat 0x39000000 = (2 : ℚ) ^ (-13 : ℤ) := by
    have := f32_toRat_mk 114 0 (by norm_num) (by norm_num) (by norm_num)
    norm_num at this
    rw [this, zpow_neg]
    norm_num
  have v2 : f32_toRat 0x3a800000 = (2 : ℚ) ^ (-10 : ℤ) := by
    have := f32_toRat_mk 117 0 (by norm_num) (by norm_num) (by norm_num)
    norm_num at this
    rw [this, zpow_neg]
    norm_num
  refine ⟨rfl, rfl, e1, by rw [e1, v1], e2, by rw [e2, v2], ?_, by decide, ?_⟩
  · simp [numeric_limits.digits]
  · rw [e1, e2, v1, v2, zpow_neg, zpow_neg]
    norm_num


/-- C13. The limit constants decode to their documented values and are extremal:
`max() = highest() = 0x7bff` is `65504`, `lowest() = 0xfbff` is `-65504`, and every
finite half lies between them; `min() = 0x0400` is `2^-14`, the smallest positive
normal value; `denorm_min() = 0x0001` is `2^-24`, the smallest positive value of any
half; and `infinity() = 0x7c00` is converted to the `float` `+infinity`. -/
theorem C13_limit_constants :
    numeric_limits.max = 0x7bff ∧ NumTraits.highest = 0x7bff ∧
    numeric_limits.lowest = 0xfbff ∧ NumTraits.lowest = 0xfbff ∧
    numeric_limits.min = 0x0400 ∧ numeric_limits.denorm_min = 0x0001 ∧
    numeric_limits.infinity = 0x7c00 ∧ NumTraits.infinity = 0x7c00 ∧
    f32_toRat (half_to_float numeric_limits.max) = 65504 ∧
    f32_toRat (half_to_float numeric_limits.lowest) = -65504 ∧
    (∀ h : Nat, h < 65536 → isfinite h = true →
      f32_toRat (half_to_float numeric_limits.lowest) ≤ f32_toRat (half_to_float h) ∧
      f32_toRat (half_to_float h) ≤ f32_toRat (half_to_float numeric_limits.max)) ∧
    f32_toRat (half_to_float numeric_limits.min) = (2 : ℚ) ^ (-14 : ℤ) ∧
    (∀ h : Nat, h < 65536 → h >>> 15 = 0 → 0 < (h >>> 10) &&& 0x1f →
      (h >>> 10) &&& 0x1f ≠ 31 →
      f32_toRat (half_to_float numeric_limits.min) ≤ f32_toRat (half_to_float h)) ∧
    f32_toRat (half_to_float numeric_limits.denorm_min) = (2 : ℚ) ^ (-24 : ℤ) ∧
    (∀ h : Nat, h < 65536 → isfinite h = true → 0 < f32_toRat (half_to_float h) →
      f32_toRat (half_to_float numeric_limits.denorm_min) ≤ f32_toRat (half_to_float h)) ∧
    (∀ h : Nat, h < 65536 → isnan h = false → op_lt 0x0000 h = true →
      op_le numeric_limits.denorm_min h = true) ∧
    half_to_float numeric_limits.infinity = 0x7f800000 ∧
    f32_isInf (half_to_float numeric_limits.infinity) = true ∧
    f32_signbit (half_to_float numeric_limits.infinity) = false := by
  have emax : half_to_float numeric_limits.max = 142 * 8388608 + 8380416 := by decide
  have elow : half_to_float numeric_limits.lowest
      = 142 * 8388608 + 8380416 + 1 * 2147483648 := by decide
  have emin : half_to_float numeric_limits.min = 113 * 8388608 + 0 := by decide
  have eden : half_to_float numeric_limits.denorm_min = 103 * 8388608 + 0 := by decide
  have vmax : f32_toRat (half_to_float numeric_limits.max) = 65504 := by
    rw [emax, f32_toRat_mk 142 8380416 (by norm_num) (by norm_num) (by norm_num)]
    norm_num
  have vlow : f32_toRat (half_to_float numeric_limits.lowest) = -65504 := by
    rw [elow, f32_toRat_neg_mk 142 8380416 (by norm_num) (by norm_num) (by norm_num)]
    norm_num
  have vmin : f32_toRat (half_to_float numeric_limits.min) = (2 : ℚ) ^ (-14 : ℤ) := by
    rw [emin, f32_toRat_mk 113 0 (by norm_num) (by norm_num) (by norm_num), zpow_neg]
    norm_num
  have vden : f32_toRat (half_to_float numeric_limits.denorm_min) = (2 : ℚ) ^ (-24 : ℤ) := by
    rw [eden, f32_toRat_mk 103 0 (by norm_num) (by norm_num) (by norm_num), zpow_neg]
    norm_num
  have h24 : (0 : ℚ) < 2 ^ 24 := by norm_num
  refine ⟨rfl, rfl, rfl, rfl, rfl, rfl, rfl, rfl, vmax, vlow, ?_, vmin, ?_, vden, ?_, ?_,
    by decide, by decide, by decide⟩
  · intro h hh hfin
    rw [isfinite_iff] at hfin
    obtain ⟨hb, -, -⟩ := half_mag_bounds h hfin
    have hbq : (half_mag h : ℚ) ≤ 2047 * 2 ^ 29 := by exact_mod_cast hb
    have h0 : (0 : ℚ) ≤ (half_mag h : ℚ) := Nat.cast_nonneg _
    rw [vlow, vmax, f32_toRat_finite h hh hfin]
    by_cases c : h / 32768 % 2 = 1
    · rw [if_pos c, le_div_iff₀ h24, div_le_iff₀ h24]
      constructor <;> nlinarith
    · rw [if_neg c, le_div_iff₀ h24, div_le_iff₀ h24]
      constructor <;> nlinarith
  · intro h hh hs he1 he2
    simp only [and_1f, Nat.shiftRight_eq_div_pow, Nat.reducePow] at hs he1 he2
    have hfin : h % 32768 < 31744 := by omega
    obtain ⟨-, hb, -⟩ := half_mag_bounds h hfin
    have hbq : (1024 : ℚ) ≤ (half_mag h : ℚ) := by exact_mod_cast hb (by omega)
    rw [vmin, f32_toRat_finite h hh hfin, if_neg (by omega), zpow_neg, one_mul,
      le_div_iff₀ h24]
    norm_num
    exact_mod_cast hbq
  · intro h hh hfin hpos
    rw [isfinite_iff] at hfin
    obtain ⟨-, -, hb⟩ := half_mag_bounds h hfin
    have h0 : (0 : ℚ) ≤ (half_mag h : ℚ) := Nat.cast_nonneg _
    rw [f32_toRat_finite h hh hfin] at hpos ⊢
    rw [vden]
    by_cases c : h / 32768 % 2 = 1
    · rw [if_pos c] at hpos
      have : (-1 : ℚ) * (half_mag h : ℚ) / 2 ^ 24 ≤ 0 := by
        apply div_nonpos_of_nonpos_of_nonneg _ h24.le
        linarith
      linarith
    · rw [if_neg c] at hpos ⊢
      rw [one_mul] at hpos ⊢
      have hne : half_mag h ≠ 0 := by
        intro hz
        rw [hz] at hpos
        simp at hpos
      have hx : 0 < h % 32768 := by
        by_contra hc
        apply hne
        rw [← half_mag_sign h]
        have : h % 32768 = 0 := by omega
        rw [this]
        exact half_mag_small 0 (by norm_num)
      have hbq : (1 : ℚ) ≤ (half_mag h : ℚ) := by exact_mod_cast hb hx
      rw [zpow_neg, le_div_iff₀ h24]
      norm_num
      exact_mod_cast hbq
  · intro h hh hn hlt
    have n0 : isnan 0 = false := by decide
    have n1 : isnan numeric_limits.denorm_min = false := by decide
    have k := (op_iff_key 0 h (by norm_num) hh n0 hn).1.mp hlt
    rw [(op_iff_key numeric_limits.denorm_min h (by decide) hh n1 hn).2.1]
    obtain ⟨x, s, rfl, hx, hs, -, -⟩ := half_split h hh
    have k0 : sign_magnitude_key 0 = 0 := by decide
    have k1 : sign_magnitude_key numeric_limits.denorm_min = 1 := by decide
    rw [k0, sign_magnitude_key_add x s hx hs] at k
    rw [k1, sign_magnitude_key_add x s hx hs]
    by_cases c : s = 1
    · rw [if_pos c] at k ⊢; omega
    · rw [if_neg c] at k ⊢; omega

theorem C13_limit_constants_witness :
    (0x7bff : Nat) < 65536 ∧ isfinite 0x7bff = true ∧
    (f32_toRat (half_to_float numeric_limits.lowest) ≤ f32_toRat (half_to_float 0x7bff) ∧
      f32_toRat (half_to_float 0x7bff) ≤ f32_toRat (half_to_float numeric_limits.max)) :=
  ⟨by decide, by decide, C13_limit_constants.2.2.2.2.2.2.2.2.2.2.1 0x7bff (by decide)
    (by decide)⟩


/-- C14. Unary negation flips only the sign bit: `(-a).x == a.x ^ 0x8000` for every
half `a`, so `-(-a)` is bitwise `a`; and for every non-NaN `a` the bit trick agrees
with negating the `float` value and converting back:
`(-a).x == float_to_half_rtne(-half_to_float(a)).x`. -/
theorem C14_negation_flips_sign (a : Nat) (ha : a < 65536) :
    op_neg a = a ^^^ 0x8000 ∧
    op_neg (op_neg a) = a ∧
    (isnan a = false → op_neg a = float_to_half_rtne (f32_neg (half_to_float a))) := by
  have h1 : op_neg a = a % 32768 + (1 - a / 32768) * 32768 := op_neg_eq a ha
  refine ⟨by rw [h1, xor_8000 a ha], ?_, ?_⟩
  · rw [op_neg_eq _ (by rw [h1]; omega), h1]
    omega
  · intro hn
    obtain ⟨x, s, rfl, hx, hs, e1, e2⟩ := half_split a ha
    rw [isnan_add x s hx, decide_eq_false_iff_not] at hn
    obtain ⟨hf, hlt⟩ := half_to_float_add x s hx hs
    rw [h1, e1, e2, hf, f32_neg_add _ _ hlt hs,
      float_to_half_rtne_add _ _ hlt (by omega), rtne_mag_half_to_float x (by omega)]

theorem C14_negation_flips_sign_witness :
    (0x7c00 : Nat) < 65536 ∧
    (op_neg 0x7c00 = 0x7c00 ^^^ 0x8000 ∧
    op_neg (op_neg 0x7c00) = 0x7c00 ∧
    (isnan 0x7c00 = false →
      op_neg 0x7c00 = float_to_half_rtne (f32_neg (half_to_float 0x7c00)))) :=
  ⟨by decide, C14_negation_flips_sign 0x7c00 (by decide)⟩

/-- C15. `min` and `max` return one operand unconverted: for non-NaN `a`, `b`,
`(min)(a, b)` is bitwise `a` or `b` and its `float` value is `<=` both values,
`(max)(a, b)` is bitwise `a` or `b` and its `float` value is `>=` both values; when
the two values compare equal (`+0` against `-0` included) both return `a`. -/
theorem C15_min_max_return_operand (a b : Nat) (ha : a < 65536) (hb : b < 65536)
    (na : isnan a = false) (nb : isnan b = false) :
    (min a b = a ∨ min a b = b) ∧
    f32_le (half_to_float (min a b)) (half_to_float a) = true ∧
    f32_le (half_to_float (min a b)) (half_to_float b) = true ∧
    (max a b = a ∨ max a b = b) ∧
    f32_ge (half_to_float (max a b)) (half_to_float a) = true ∧
    f32_ge (half_to_float (max a b)) (half_to_float b) = true ∧
    (op_eq a b = true → min a b = a ∧ max a b = a) ∧
    min 0x0000 0x8000 = 0x0000 ∧ max 0x0000 0x8000 = 0x0000 ∧
    min 0x8000 0x0000 = 0x8000 ∧ max 0x8000 0x0000 = 0x8000 := by
  have h1 := f32_isNaN_half_to_float_false a ha na
  have h2 := f32_isNaN_half_to_float_false b hb nb
  have hlt1 : f32_lt (half_to_float b) (half_to_float a)
      = decide (f32_val (half_to_float b) < f32_val (half_to_float a)) := by
    simp [f32_lt, h1, h2]
  have hlt2 : f32_lt (half_to_float a) (half_to_float b)
      = decide (f32_val (half_to_float a) < f32_val (half_to_float b)) := by
    simp [f32_lt, h1, h2]
  have hle : ∀ u v, f32_isNaN u = false → f32_isNaN v = false →
      (f32_le u v = true ↔ f32_val u ≤ f32_val v) := by
    intro u v hu hv; simp [f32_le, hu, hv]
  have hge : ∀ u v, f32_isNaN u = false → f32_isNaN v = false →
      (f32_ge u v = true ↔ f32_val v ≤ f32_val u) := by
    intro u v hu hv; simp [f32_ge, hu, hv]
  have heq : op_eq a b = true ↔ f32_val (half_to_float a) = f32_val (half_to_float b) := by
    simp [op_eq, f32_eq, h1, h2]
  simp only [min, max, hlt1, hlt2, decide_eq_true_eq]
  refine ⟨?_, ?_, ?_, ?_, ?_, ?_, ?_, by decide, by decide, by decide, by decide⟩
  · split <;> simp
  · split
    · rw [hle _ _ h2 h1]; omega
    · rw [hle _ _ h1 h1]
  · split
    · rw [hle _ _ h2 h2]
    · rw [hle _ _ h1 h2]; omega
  · split <;> simp
  · split
    · rw [hge _ _ h2 h1]; omega
    · rw [hge _ _ h1 h1]
  · split
    · rw [hge _ _ h2 h2]
    · rw [hge _ _ h1 h2]; omega
  · rw [heq]
    intro he
    rw [if_neg (by omega), if_neg (by omega)]
    exact ⟨rfl, rfl⟩

theorem C15_min_max_return_operand_witness :
    (0x3c00 : Nat) < 65536 ∧ (0xbc00 : Nat) < 65536 ∧
    isnan 0x3c00 = false ∧ isnan 0xbc00 = false ∧
    (min 0x3c00 0xbc00 = 0x3c00 ∨ min 0x3c00 0xbc00 = 0xbc00) ∧
    f32_le (half_to_float (min 0x3c00 0xbc00)) (half_to_float 0x3c00) = true :=
  have h := C15_min_max_return_operand 0x3c00 0xbc00 (by decide) (by decide)
    (by decide) (by decide)
  ⟨by decide, by decide, by decide, by decide, h.1, h.2.1⟩

/-- C16. `abs` clears only the sign bit: `abs(a).x == a.x & 0x7fff` for every half `a`
(and `fabsh(a)` is the same), `abs` is idempotent, and for every non-NaN `a` it agrees
with the absolute value of the `float` converted back,
`abs(a).x == float_to_half_rtne(|half_to_float(a)|).x`; the `float` value of `abs(a)`
has a clear sign bit and compares `>= 0`. -/
theorem C16_abs_clears_sign (a : Nat) (ha : a < 65536) :
    abs a = a &&& 0x7fff ∧
    fabsh a = abs a ∧
    abs (abs a) = abs a ∧
    (isnan a = false →
      (abs a = float_to_half_rtne (f32_abs (half_to_float a)) ∧
       f32_signbit (half_to_float (abs a)) = false ∧
       f32_ge (half_to_float (abs a)) 0 = true)) := by
  have h1 : abs a = a % 32768 := abs_eq a
  refine ⟨by rw [h1, and_7fff], rfl, ?_, ?_⟩
  · rw [abs_eq, h1]; omega
  · intro hn
    obtain ⟨x, s, rfl, hx, hs, e1, e2⟩ := half_split a ha
    rw [isnan_add x s hx, decide_eq_false_iff_not] at hn
    obtain ⟨hf, hlt⟩ := half_to_float_add x s hx hs
    rw [h1, e1, hf, f32_abs_add _ _ hlt]
    have hnn : f32_isNaN (half_to_float x) = false := by
      rw [f32_isNaN_half_to_float x (by omega)]
      have := isnan_add x 0 hx
      simp only [Nat.zero_mul, Nat.add_zero] at this
      rw [this, decide_eq_false_iff_not]; exact hn
    refine ⟨?_, f32_signbit_lt _ hlt, ?_⟩
    · have := float_to_half_rtne_add (half_to_float x) 0 hlt (by omega)
      simp only [Nat.zero_mul, Nat.add_zero] at this
      rw [this, rtne_mag_half_to_float x (by omega)]
    · have h0 : f32_isNaN 0 = false := by decide
      have hv0 : f32_val 0 = 0 := by
        rw [f32_val_lt 0 (by norm_num), f32_mag_zero]; rfl
      simp only [f32_ge, hnn, h0, Bool.not_false, Bool.true_and, decide_eq_true_eq, hv0,
        f32_val_lt _ hlt]
      exact Int.natCast_nonneg _

theorem C16_abs_clears_sign_witness :
    (0xfbff : Nat) < 65536 ∧
    (abs 0xfbff = 0xfbff &&& 0x7fff ∧
    fabsh 0xfbff = abs 0xfbff ∧
    abs (abs 0xfbff) = abs 0xfbff ∧
    (isnan 0xfbff = false →
      (abs 0xfbff = float_to_half_rtne (f32_abs (half_to_float 0xfbff)) ∧
       f32_signbit (half_to_float (abs 0xfbff)) = false ∧
       f32_ge (half_to_float (abs 0xfbff)) 0 = true))) :=
  ⟨by decide, C16_abs_clears_sign 0xfbff (by decide)⟩


/-- C17. Boolean conversion: the cast `bool(h)` is true exactly when
`(h & 0x7fff) != 0`, which holds exactly when `half_to_float(h) != 0.0f`; so `+0` and
`-0` are false and every NaN and infinity is true.  For every `bool b`, `half(b)` is
`0x3c00` (the pattern converted to `1.0f`) or `0x0000`, and `bool(half(b)) == b`. -/
theorem C17_bool_conversion (h : Nat) (hh : h < 65536) :
    (to_bool h = true ↔ h &&& 0x7fff ≠ 0) ∧
    (h &&& 0x7fff ≠ 0 ↔ f32_ne (half_to_float h) 0 = true) ∧
    to_bool 0x0000 = false ∧ to_bool 0x8000 = false ∧
    ((isnan h = true ∨ isinf h = true) → to_bool h = true) ∧
    (∀ b : Bool, (half_of_bool b = 0x3c00 ∨ half_of_bool b = 0x0000) ∧
      to_bool (half_of_bool b) = b) ∧
    half_to_float 0x3c00 = 0x3f800000 := by
  refine ⟨by simp [to_bool], ?_, by decide, by decide, ?_, ?_, by decide⟩
  · obtain ⟨x, s, rfl, hx, hs, e1, -⟩ := half_split h hh
    have hv := f32_val_half_to_float x s hx hs
    have h0 : f32_isNaN 0 = false := by decide
    have hv0 : f32_val 0 = 0 := by
      rw [f32_val_lt 0 (by norm_num), f32_mag_zero]; rfl
    have hz := hmag_eq_zero_iff x hx
    rw [and_7fff, e1]
    by_cases hn : isnan (x + s * 32768) = true
    · have hn2 : f32_isNaN (half_to_float (x + s * 32768)) = true := by
        rw [f32_isNaN_half_to_float _ hh, hn]
      rw [isnan_add x s hx, decide_eq_true_eq] at hn
      simp only [f32_ne, hn2, Bool.true_or, iff_true]
      omega
    · have hn2 : f32_isNaN (half_to_float (x + s * 32768)) = false := by
        rw [f32_isNaN_half_to_float _ hh]; simpa using hn
      simp only [f32_ne, hn2, h0, Bool.false_or, decide_eq_true_eq, hv, hv0]
      by_cases c : s = 1
      · rw [if_pos c]; omega
      · rw [if_neg c]; omega
  · simp only [to_bool, isnan, isinf, and_7fff, decide_eq_true_eq]
    omega
  · intro b
    cases b <;> decide

theorem C17_bool_conversion_witness :
    (0x8000 : Nat) < 65536 ∧
    (to_bool 0x8000 = true ↔ 0x8000 &&& 0x7fff ≠ 0) ∧
    (0x8000 &&& 0x7fff ≠ 0 ↔ f32_ne (half_to_float 0x8000) 0 = true) :=
  have h := C17_bool_conversion 0x8000 (by decide)
  ⟨by decide, h.1, h.2.1⟩

/-- C18 as stated fails: `+0` and `-0` compare equal but hash to `0` and `32768`. -/
theorem C18_counterexample :
    ¬ (∀ a b : Nat, a < 65536 → b < 65536 → op_eq a b = true → hash a = hash b) := by
  intro h
  have h1 := h 0x0000 0x8000 (by decide) (by decide) (by decide)
  revert h1
  decide

/-- C18 (amended). `std::hash<Eigen::half>` returns the raw 16 bit pattern, and for
all halves `a`, `b` with `a == b` that are not both zeros, `hash(a) == hash(b)`; the
only equal halves with different hashes are the two zeros `0x0000` and `0x8000`. -/
theorem C18_hash_raw_pattern (a b : Nat) (ha : a < 65536) (hb : b < 65536) :
    hash a = a ∧ hash b = b ∧
    (op_eq a b = true → ¬ (a &&& 0x7fff = 0 ∧ b &&& 0x7fff = 0) → hash a = hash b) ∧
    (op_eq a b = true → hash a ≠ hash b →
      ((a = 0x0000 ∧ b = 0x8000) ∨ (a = 0x8000 ∧ b = 0x0000))) := by
  refine ⟨rfl, rfl, ?_, ?_⟩
  · intro he hz
    obtain ⟨na, nb⟩ := op_eq_nonnan a b ha hb he
    have hk := (op_iff_key a b ha hb na nb).2.2.mp he
    rw [sign_magnitude_key_eq_iff a b ha hb] at hk
    rw [and_7fff, and_7fff] at hz
    simp only [hash]
    omega
  · intro he hne
    obtain ⟨na, nb⟩ := op_eq_nonnan a b ha hb he
    have hk := (op_iff_key a b ha hb na nb).2.2.mp he
    rw [sign_magnitude_key_eq_iff a b ha hb] at hk
    simp only [hash] at hne
    omega

theorem C18_hash_raw_pattern_witness :
    (0x3c00 : Nat) < 65536 ∧ (0x3c00 : Nat) < 65536 ∧
    (hash 0x3c00 = 0x3c00 ∧ hash 0x3c00 = 0x3c00 ∧
    (op_eq 0x3c00 0x3c00 = true → ¬ (0x3c00 &&& 0x7fff = 0 ∧ 0x3c00 &&& 0x7fff = 0) →
      hash 0x3c00 = hash 0x3c00) ∧
    (op_eq 0x3c00 0x3c00 = true → hash 0x3c00 ≠ hash 0x3c00 →
      (((0x3c00 : Nat) = 0x0000 ∧ (0x3c00 : Nat) = 0x8000) ∨
       ((0x3c00 : Nat) = 0x8000 ∧ (0x3c00 : Nat) = 0x0000)))) :=
  ⟨by decide, by decide, C18_hash_raw_pattern 0x3c00 0x3c00 (by decide) (by decide)⟩


/-- C19. `float_to_half_rtne` is monotone: for non-NaN binary32 values `f <= g` the
converted halves satisfy `half_to_float(float_to_half_rtne(f)) <=
half_to_float(float_to_half_rtne(g))`, across the subnormal, normal and overflow
branches and across the sign change. -/
theorem C19_float_to_half_rtne_monotone (f g : Nat) (hf : f < 4294967296)
    (hg : g < 4294967296) (nf : f32_isNaN f = false) (ng : f32_isNaN g = false)
    (hle : f32_le f g = true) :
    f32_le (half_to_float (float_to_half_rtne f)) (half_to_float (float_to_half_rtne g))
      = true := by
  obtain ⟨fu, s, rfl, hfu, hs, -, -⟩ := f32_split f hf
  obtain ⟨gu, t, rfl, hgu, ht, -, -⟩ := f32_split g hg
  rw [f32_isNaN_add fu s hfu, decide_eq_false_iff_not] at nf
  rw [f32_isNaN_add gu t hgu, decide_eq_false_iff_not] at ng
  have hle2 : f32_val (fu + s * 2147483648) ≤ f32_val (gu + t * 2147483648) := by
    have n1 : f32_isNaN (fu + s * 2147483648) = false := by
      rw [f32_isNaN_add fu s hfu, decide_eq_false_iff_not]; exact nf
    have n2 : f32_isNaN (gu + t * 2147483648) = false := by
      rw [f32_isNaN_add gu t hgu, decide_eq_false_iff_not]; exact ng
    simpa [f32_le, n1, n2] using hle
  rw [f32_val_add fu s hfu hs, f32_val_add gu t hgu ht] at hle2
  rw [float_to_half_rtne_add fu s hfu hs, float_to_half_rtne_add gu t hgu ht]
  have hnf : rtne_mag fu ≤ 31744 := by
    have := rtne_mag_nan_iff fu hfu; omega
  have hng : rtne_mag gu ≤ 31744 := by
    have := rtne_mag_nan_iff gu hgu; omega
  have na : isnan (rtne_mag fu + s * 32768) = false := by
    rw [isnan_add _ s (by omega), decide_eq_false_iff_not]; omega
  have nb : isnan (rtne_mag gu + t * 32768) = false := by
    rw [isnan_add _ t (by omega), decide_eq_false_iff_not]; omega
  have key := (op_iff_key _ _ (by omega) (by omega) na nb).2.1
  rw [op_le] at key
  rw [key, sign_magnitude_key_add _ s (by omega) hs, sign_magnitude_key_add _ t (by omega) ht]
  have m1 : fu ≤ gu → rtne_mag fu ≤ rtne_mag gu := fun h => rtne_mag_mono fu gu h (by omega)
  have m2 : gu ≤ fu → rtne_mag gu ≤ rtne_mag fu := fun h => rtne_mag_mono gu fu h (by omega)
  have k1 := f32_mag_lt_iff fu gu hfu hgu
  have k2 := f32_mag_lt_iff gu fu hgu hfu
  have z1 : f32_mag fu = 0 → fu = 0 := f32_mag_eq_zero fu hfu
  have z2 : f32_mag gu = 0 → gu = 0 := f32_mag_eq_zero gu hgu
  have z0 := rtne_mag_zero
  generalize f32_mag fu = mf at hle2 k1 k2 z1 z2
  generalize f32_mag gu = mg at hle2 k1 k2 z1 z2
  by_cases c1 : s = 1 <;> by_cases c2 : t = 1 <;>
    simp only [c1, c2, if_true, if_false] at hle2 ⊢
  · have : gu ≤ fu := by omega
    have := m2 this
    omega
  · omega
  · have h1 : fu = 0 := z1 (by omega)
    have h2 : gu = 0 := z2 (by omega)
    rw [h1, h2, z0]
    omega
  · have : fu ≤ gu := by omega
    have := m1 this
    omega

theorem C19_float_to_half_rtne_monotone_witness :
    (0xb3000001 : Nat) < 4294967296 ∧ (0x477fefff : Nat) < 4294967296 ∧
    f32_isNaN 0xb3000001 = false ∧ f32_isNaN 0x477fefff = false ∧
    f32_le (half_to_float (float_to_half_rtne 0xb3000001))
      (half_to_float (float_to_half_rtne 0x477fefff)) = true :=
  have hle : f32_le 0xb3000001 0x477fefff = true := by
    have n1 : f32_isNaN 0xb3000001 = false := by decide
    have n2 : f32_isNaN 0x477fefff = false := by decide
    have v1 := f32_val_add 855638017 1 (by norm_num) (by norm_num)
    have v2 := f32_val_lt 0x477fefff (by norm_num)
    norm_num at v1
    simp only [f32_le, n1, n2, Bool.not_false, Bool.true_and, decide_eq_true_eq, v1, v2]
    omega
  ⟨by decide, by decide, by decide, by decide,
    C19_float_to_half_rtne_monotone 0xb3000001 0x477fefff (by decide) (by decide)
      (by decide) (by decide) hle⟩


/-- C20. On non-NaN halves (infinities included) `operator<` is the order of the
sign-magnitude keys: `a < b` holds exactly when `key a < key b`, where the key is
`h.x & 0x7fff` for a clear and `-(h.x & 0x7fff)` for a set bit 15.  Hence on patterns
with a clear sign bit the conversion is strictly increasing up to the infinity
pattern, and `+0` and `-0` are unordered but equal. -/
theorem C20_lt_is_sign_magnitude_order (a b : Nat) (ha : a < 65536) (hb : b < 65536)
    (na : isnan a = false) (nb : isnan b = false) :
    (op_lt a b = true ↔ sign_magnitude_key a < sign_magnitude_key b) ∧
    (∀ x y : Nat, x < y → y ≤ 0x7c00 →
      f32_lt (half_to_float x) (half_to_float y) = true) ∧
    op_lt 0x0000 0x8000 = false ∧ op_lt 0x8000 0x0000 = false ∧
    op_eq 0x0000 0x8000 = true := by
  refine ⟨(op_iff_key a b ha hb na nb).1, ?_, by decide, by decide, by decide⟩
  intro x y hxy hy
  have nx : isnan x = false := by
    have := isnan_add x 0 (by omega)
    simp only [Nat.zero_mul, Nat.add_zero] at this
    rw [this, decide_eq_false_iff_not]; omega
  have ny : isnan y = false := by
    have := isnan_add y 0 (by omega)
    simp only [Nat.zero_mul, Nat.add_zero] at this
    rw [this, decide_eq_false_iff_not]; omega
  have h := (op_iff_key x y (by omega) (by omega) nx ny).1
  rw [op_lt] at h
  rw [h]
  have k1 := sign_magnitude_key_add x 0 (by omega) (by omega)
  have k2 := sign_magnitude_key_add y 0 (by omega) (by omega)
  simp only [Nat.zero_mul, Nat.add_zero] at k1 k2
  rw [k1, k2, if_neg (by omega), if_neg (by omega)]
  omega

theorem C20_lt_is_sign_magnitude_order_witness :
    (0xfc00 : Nat) < 65536 ∧ (0x0001 : Nat) < 65536 ∧
    isnan 0xfc00 = false ∧ isnan 0x0001 = false ∧
    (op_lt 0xfc00 0x0001 = true ↔ sign_magnitude_key 0xfc00 < sign_magnitude_key 0x0001) :=
  ⟨by decide, by decide, by decide, by decide,
    (C20_lt_is_sign_magnitude_order 0xfc00 0x0001 (by decide) (by decide)
      (by decide) (by decide)).1⟩

/-- C21. Round trip on non-finite patterns: a 16 bit pattern `h` with exponent field
31 is an infinity (`0x7c00` or `0xfc00`) or a NaN; converting to `float` and back
returns `h` for an infinity and `(h & 0x8000) | 0x7e00` for a NaN, so the sign of a
NaN is kept and its payload dropped; `0x7c01` (`NumTraits<half>::quiet_NaN`) is mapped
to `0x7e00` (`numeric_limits<half>::quiet_NaN`). -/
theorem C21_round_trip_non_finite (h : Nat) (hh : h < 65536)
    (he : (h >>> 10) &&& 0x1f = 31) :
    (isinf h = true ∨ isnan h = true) ∧
    (isinf h = true ↔ (h = 0x7c00 ∨ h = 0xfc00)) ∧
    (isinf h = true → float_to_half_rtne (half_to_float h) = h) ∧
    (isnan h = true →
      float_to_half_rtne (half_to_float h) = (h &&& 0x8000) ||| 0x7e00) ∧
    NumTraits.quiet_NaN = 0x7c01 ∧ numeric_limits.quiet_NaN = 0x7e00 ∧
    float_to_half_rtne (half_to_float NumTraits.quiet_NaN) = numeric_limits.quiet_NaN := by
  simp only [and_1f, Nat.shiftRight_eq_div_pow, Nat.reducePow] at he
  obtain ⟨x, s, rfl, hx, hs, e1, e2⟩ := half_split h hh
  have hx2 : 31744 ≤ x := by omega
  obtain ⟨p, hp, hlt, h1, -, -⟩ := half_to_float_shape (x + s * 32768) hh
  rw [e1] at h1
  rw [e2] at hp
  have hpe := h1 hx2
  have hrt : float_to_half_rtne (half_to_float (x + s * 32768))
      = (if 31744 < x then 0x7e00 else 0x7c00) + s * 32768 := by
    rw [hp, float_to_half_rtne_add p s hlt hs, rtne_mag, if_pos (by omega)]
    by_cases c : 31744 < x
    · rw [if_pos (by omega), if_pos c]
    · rw [if_neg (by omega), if_neg c]
  have hor : ((x + s * 32768) &&& 0x8000) ||| 0x7e00 = 0x7e00 + s * 32768 := by
    rw [and_8000, e2, Nat.or_comm]
    have : s % 2 * 32768 = s * 2 ^ 15 := by omega
    rw [this, or_high 0x7e00 s 15 (by norm_num)]
    norm_num
  rw [hrt, hor]
  simp only [isinf, isnan, and_7fff, e1, decide_eq_true_eq]
  refine ⟨by omega, by omega, ?_, ?_, rfl, rfl, by decide⟩
  · intro hi
    rw [if_neg (by omega)]; omega
  · intro hn
    rw [if_pos hn]

theorem C21_round_trip_non_finite_witness :
    (0xfc01 : Nat) < 65536 ∧ ((0xfc01 : Nat) >>> 10) &&& 0x1f = 31 ∧
    ((isinf 0xfc01 = true ∨ isnan 0xfc01 = true) ∧
    (isinf 0xfc01 = true ↔ ((0xfc01 : Nat) = 0x7c00 ∨ (0xfc01 : Nat) = 0xfc00)) ∧
    (isinf 0xfc01 = true → float_to_half_rtne (half_to_float 0xfc01) = 0xfc01) ∧
    (isnan 0xfc01 = true →
      float_to_half_rtne (half_to_float 0xfc01) = (0xfc01 &&& 0x8000) ||| 0x7e00) ∧
    NumTraits.quiet_NaN = 0x7c01 ∧ numeric_limits.quiet_NaN = 0x7e00 ∧
    float_to_half_rtne (half_to_float NumTraits.quiet_NaN) = numeric_limits.quiet_NaN) :=
  ⟨by decide, by decide, C21_round_trip_non_finite 0xfc01 (by decide) (by decide)⟩

/-- C22. Small integers are represented exactly: for every integer `n` with
`-2048 ≤ n ≤ 2048`, constructing `half(n)` through the generic constructor
(`static_cast<float>` then `float_to_half_rtne`) and casting back with the explicit
`int` conversion (truncation of `half_to_float`) returns `n`. -/
theorem C22_small_integers_exact (n : Int) (h1 : -2048 ≤ n) (h2 : n ≤ 2048) :
    to_int (half_of_int n) = some n := by
  rcases Nat.eq_zero_or_pos n.natAbs with c | c
  · have hn : n = 0 := Int.natAbs_eq_zero.mp c
    subst hn
    have e : half_of_int 0 = 0 := by
      have e0 : int_to_f32 0 = 0 := by
        have h0 : f32_round (0 * 2 ^ 149) = 0 := by
          rw [Nat.zero_mul, f32_round, f32_round_search_small 0 254 (by norm_num)]
          rfl
        simp only [int_to_f32, Int.natAbs_zero, h0]
        norm_num
      rw [half_of_int, e0]
      decide
    rw [e, to_int, half_to_float_zero]
    have := f32_to_int_add 0 0 0 (by norm_num) (by norm_num)
      (by rw [f32_mag_zero]; norm_num) (by norm_num)
    simpa using this
  · have hk : n.natAbs ≤ 2048 := by omega
    obtain ⟨hu, hmu⟩ := f32_round_scaled n.natAbs 149 c (by omega) (by norm_num)
      (by norm_num)
    obtain ⟨x, hx, hmx⟩ := half_of_small_nat n.natAbs c hk
    have hmag : f32_mag (f32_round (n.natAbs * 2 ^ 149)) = half_mag x * 2 ^ 125 := by
      rw [hmu, hmx, Nat.mul_assoc, ← Nat.pow_add]
    obtain ⟨eu, er⟩ := rtne_mag_of_half_mag _ x (by omega) hx hmag
    have hs : (if n < 0 then (0x80000000 : Nat) else 0)
        = (if n < 0 then 1 else 0) * 2147483648 := by
      split <;> norm_num
    have hsl : (if n < 0 then 1 else 0) < 2 := by split <;> norm_num
    rw [to_int, half_of_int, int_to_f32, hs, Nat.add_comm,
      float_to_half_rtne_add _ _ (by omega) hsl, er,
      (half_to_float_add x _ (by omega) hsl).1, ← eu,
      f32_to_int_add _ _ n.natAbs hu hsl hmu (by omega)]
    congr 1
    by_cases cn : n < 0
    · simp only [cn, if_true]; omega
    · simp only [cn, if_false]
      rw [if_neg (by norm_num)]; omega

theorem C22_small_integers_exact_witness :
    (-2048 : Int) ≤ -2047 ∧ (-2047 : Int) ≤ 2048 ∧ to_int (half_of_int (-2047)) = some (-2047) :=
  ⟨by decide, by decide, C22_small_integers_exact (-2047) (by decide) (by decide)⟩

/-- C23. `float_to_half_rtne` is sign-symmetric: for every binary32 pattern `f`
(finite, infinite or NaN) the result for `f` with its sign bit flipped is the result
for `f` with bit 15 flipped, and bit 15 of the result is bit 31 of the input. -/
theorem C23_sign_symmetric (f : Nat) (hf : f < 4294967296) :
    float_to_half_rtne (f ^^^ 0x80000000) = float_to_half_rtne f ^^^ 0x8000 ∧
    float_to_half_rtne f >>> 15 = f >>> 31 ∧
    float_to_half_rtne f < 65536 := by
  obtain ⟨fu, s, rfl, hfu, hs, e1, e2⟩ := f32_split f hf
  have hm := rtne_mag_le fu hfu
  have hx := xor_80000000 _ hf
  rw [e1, e2] at hx
  have hr := float_to_half_rtne_add fu s hfu hs
  have hlt : float_to_half_rtne (fu + s * 2147483648) < 65536 := by rw [hr]; omega
  rw [hx, float_to_half_rtne_add fu (1 - s) hfu (by omega), xor_8000 _ hlt, hr]
  simp only [Nat.shiftRight_eq_div_pow, Nat.reducePow]
  refine ⟨?_, by omega, by omega⟩
  have a1 : (rtne_mag fu + s * 32768) % 32768 = rtne_mag fu := by omega
  have a2 : (rtne_mag fu + s * 32768) / 32768 = s := by omega
  rw [a1, a2]

theorem C23_sign_symmetric_witness :
    (0x7fc00001 : Nat) < 4294967296 ∧
    (float_to_half_rtne (0x7fc00001 ^^^ 0x80000000)
        = float_to_half_rtne 0x7fc00001 ^^^ 0x8000 ∧
    float_to_half_rtne 0x7fc00001 >>> 15 = 0x7fc00001 >>> 31 ∧
    float_to_half_rtne 0x7fc00001 < 65536) :=
  ⟨by decide, C23_sign_symmetric 0x7fc00001 (by decide)⟩


end Eigen.half_impl
